import Mathlib

/-!
A verification development for the CRISPResso2 analyzer pipeline
(`modules/utils.py`, `modules/runner.py`).  Python functions are embedded
as executable Lean definitions over explicit models of filenames,
directory trees, job results and data tables; the theorems below settle
the specification claims against those embeddings.
-/

namespace CrisprAnalyzer

/-! ## Character-list utilities shared by the regex embeddings -/

/-- Case-insensitive character equality, as produced by `re.IGNORECASE`. -/
def chCI (a b : Char) : Bool := a.toLower == b.toLower

/-- Case-insensitive prefix test on character lists. -/
def startsCI : List Char → List Char → Bool
  | [], _ => true
  | _ :: _, [] => false
  | p :: ps, c :: cs => chCI p c && startsCI ps cs

/-- Case-insensitive suffix test on character lists. -/
def endsCI (pat s : List Char) : Bool := startsCI pat.reverse s.reverse

/-- Case-insensitive whole-list equality. -/
def eqCI (pat s : List Char) : Bool := startsCI pat s && (s.length == pat.length)

/-- Maximal digit run at the head of the list, together with the rest
(the behaviour of a greedy regex group of digits followed by a literal). -/
def takeDigits : List Char → List Char × List Char
  | [] => ([], [])
  | c :: rest =>
    if c.isDigit then
      let (d, r) := takeDigits rest
      (c :: d, r)
    else ([], c :: rest)

/-- First token of a `tokenChar+_`-shaped list: the nonempty run of
non-underscore characters before the first underscore, with the remainder
after that underscore.  `none` when the list starts with an underscore or
holds no underscore at all.  This is the forced match of a regex group
`[^_]+` followed by a literal underscore. -/
def splitTokenAux : List Char → Option (List Char × List Char)
  | [] => none
  | c :: rest =>
    if c = '_' then some ([], rest)
    else (splitTokenAux rest).map (fun tr => (c :: tr.1, tr.2))

def splitToken (l : List Char) : Option (List Char × List Char) :=
  match splitTokenAux l with
  | some (t, r) => if t = [] then none else some (t, r)
  | none => none

/-! ## `parse_fastq_metadata` (modules/utils.py, lines 20-38)

The Python function matches
`^Day(\d+)_(?:([^_]+)_)?([^_]+)_([^_]+)_(\d+)(_rerun)?.*\.fastq(\.gz)?$`
case-insensitively against the filename.  The embedding below reproduces
the backtracking order of the Python `re` engine for this pattern:
the optional generation group is tried greedily first, each `[^_]+_`
piece is a forced token split, the replicate digits are matched greedily
with backtracking, the `(_rerun)?` option is tried greedily, and the
trailing `.*\.fastq(\.gz)?$` accepts any tail ending in `.fastq` or
`.fastq.gz` (case-insensitively). -/

/-- Groups captured by the filename regex. -/
structure FastqGroups where
  day : List Char
  gen : Option (List Char)
  variant : List Char
  treat : List Char
  rep : List Char
  rerun : Bool
deriving DecidableEq, Repr

/-- Tail acceptance for `.*\.fastq(\.gz)?$`: the remaining text must end in
`.fastq` or `.fastq.gz`, case-insensitively. -/
def fqTailOK (t : List Char) : Bool :=
  endsCI ".fastq".toList t || endsCI ".fastq.gz".toList t

/-- One attempt of `(_rerun)?.*\.fastq(\.gz)?$` at a fixed replicate split
(`(_rerun)?` is greedy, so the rerun branch is tried first). -/
def repAt (ds rest : List Char) : Option (List Char × Bool) :=
  if startsCI "_rerun".toList rest && fqTailOK (rest.drop 6) then some (ds, true)
  else if fqTailOK rest then some (ds, false)
  else none

/-- Backtracking over the greedy `(\d+)` replicate group: the maximal digit
run is tried first, then ever-shorter prefixes, the dropped digits being
returned to the tail.  The first argument is the reversed digit run still
considered part of the replicate group. -/
def repGo : List Char → List Char → Option (List Char × Bool)
  | [], _ => none
  | d :: rds, rest =>
    match repAt (d :: rds).reverse rest with
    | some r => some r
    | none => repGo rds (d :: rest)

/-- Matches `(\d+)(_rerun)?.*\.fastq(\.gz)?$` against `t`, returning the
replicate digits and whether the rerun marker was captured. -/
def repStage (t : List Char) : Option (List Char × Bool) :=
  let (ds, rest) := takeDigits t
  repGo ds.reverse rest

/-- Matches `(?:([^_]+)_)?([^_]+)_([^_]+)_(\d+)(_rerun)?.*\.fastq(\.gz)?$`:
the optional generation group is greedy, so the three-token reading is
tried before the two-token one. -/
def afterDayTokens (rest : List Char) :
    Option (Option (List Char) × List Char × List Char × List Char × Bool) :=
  (do
    let (g, r1) ← splitToken rest
    let (v, r2) ← splitToken r1
    let (t, r3) ← splitToken r2
    let (rp, rn) ← repStage r3
    pure (some g, v, t, rp, rn)) <|>
  (do
    let (v, r1) ← splitToken rest
    let (t, r2) ← splitToken r1
    let (rp, rn) ← repStage r2
    pure (none, v, t, rp, rn))

/-- The full filename regex of `parse_fastq_metadata`. -/
def fastqMatch (name : String) : Option FastqGroups :=
  let l := name.toList
  if startsCI "Day".toList l then
    let (ds, r') := takeDigits (l.drop 3)
    if ds.isEmpty then none
    else
      match r' with
      | c :: rest =>
        if c = '_' then
          match afterDayTokens rest with
          | some (g, v, t, rp, rn) => some ⟨ds, g, v, t, rp, rn⟩
          | none => none
        else none
      | [] => none
  else none

/-- Embedding of `parse_fastq_metadata` (utils.py lines 20-38): on a match
it returns `(f"Replica-{rep}", f"Day{day}_{treat}")`, with `_rerun`
appended when the rerun group matched; the treatment token is lower-cased
and defaulted to `untreated` when empty (the Python `or "untreated"`). -/
def parse_fastq_metadata (name : String) : Option (String × String) :=
  (fastqMatch name).map fun g =>
    let treat := (if g.treat.isEmpty then "untreated".toList else g.treat).map Char.toLower
    ("Replica-" ++ String.mk g.rep,
     "Day" ++ String.mk g.day ++ "_" ++ String.mk treat ++
       (if g.rerun then "_rerun" else ""))

example : parse_fastq_metadata "Day3_GenX_VarA_drug_2.fastq.gz" =
    some ("Replica-2", "Day3_drug") := by decide

example : parse_fastq_metadata "Day3_VarA_DMSO_1_rerun.fastq.gz" =
    some ("Replica-1", "Day3_dmso_rerun") := by decide

example : parse_fastq_metadata "day10_a_b_07_R1_001.FASTQ.GZ" =
    some ("Replica-07", "Day10_b") := by decide

example : parse_fastq_metadata "Day1_a_b_2_x.fastq" =
    some ("Replica-2", "Day1_b") := by decide

example : parse_fastq_metadata "Day1_a_b_c_2.fastq" =
    some ("Replica-2", "Day1_c") := by decide

example : parse_fastq_metadata "notaday.fastq.gz" = none := by decide

example : parse_fastq_metadata "Day1_a_2.fastq" = none := by decide

/-! ### Structure of a successful classifier match

The lemmas below recover, from a successful run of `fastqMatch`, the
decomposition of the filename that the regex grammar prescribes: the
case-insensitive `Day` prefix, the digit groups, the non-empty
underscore-free tokens, the optional rerun marker and the accepted tail. -/

/-- Lower-casing both sides, the equality `re.IGNORECASE` induces. -/
def lowEq (a b : List Char) : Prop := a.map Char.toLower = b.map Char.toLower

theorem startsCI_spec : ∀ (pat s : List Char), startsCI pat s = true →
    lowEq (s.take pat.length) pat ∧ pat.length ≤ s.length
  | [], s, _ => ⟨rfl, Nat.zero_le _⟩
  | p :: ps, [], h => by cases h
  | p :: ps, c :: cs, h => by
    rw [startsCI, Bool.and_eq_true] at h
    have hrec := startsCI_spec ps cs h.2
    have hpc : c.toLower = p.toLower := by
      have := h.1
      rw [chCI] at this
      exact (eq_of_beq this).symm
    constructor
    · show (c :: cs.take ps.length).map Char.toLower = (p :: ps).map Char.toLower
      rw [List.map_cons, List.map_cons, hpc]
      rw [show (cs.take ps.length).map Char.toLower = ps.map Char.toLower from hrec.1]
    · exact Nat.succ_le_succ hrec.2

theorem takeDigits_spec : ∀ l : List Char,
    l = (takeDigits l).1 ++ (takeDigits l).2 ∧ (takeDigits l).1.all Char.isDigit = true
  | [] => ⟨rfl, rfl⟩
  | c :: rest => by
    by_cases hc : c.isDigit
    · have hrec := takeDigits_spec rest
      have hstep : takeDigits (c :: rest) =
          (c :: (takeDigits rest).1, (takeDigits rest).2) := by
        rw [takeDigits, if_pos hc]
      rw [hstep]
      constructor
      · show c :: rest = c :: (takeDigits rest).1 ++ (takeDigits rest).2
        rw [List.cons_append, ← hrec.1]
      · rw [List.all_cons, hrec.2, hc]
        rfl
    · have hstep : takeDigits (c :: rest) = ([], c :: rest) := by
        rw [takeDigits, if_neg hc]
      rw [hstep]
      exact ⟨rfl, rfl⟩

theorem splitTokenAux_spec : ∀ {l t r : List Char}, splitTokenAux l = some (t, r) →
    l = t ++ '_' :: r ∧ '_' ∉ t
  | [], _, _, h => by cases h
  | c :: rest, t, r, h => by
    rw [splitTokenAux] at h
    by_cases hc : c = '_'
    · rw [if_pos hc] at h
      simp only [Option.some.injEq, Prod.mk.injEq] at h
      obtain ⟨rfl, rfl⟩ := h
      subst hc
      exact ⟨rfl, List.not_mem_nil _⟩
    · rw [if_neg hc] at h
      rcases ha : splitTokenAux rest with _ | ⟨t', r'⟩
      · rw [ha] at h
        cases h
      · rw [ha] at h
        simp only [Option.map_some', Option.some.injEq, Prod.mk.injEq] at h
        obtain ⟨rfl, rfl⟩ := h
        have hrec := splitTokenAux_spec ha
        constructor
        · rw [List.cons_append, ← hrec.1]
        · intro hmem
          rcases List.mem_cons.mp hmem with hmem | hmem
          · exact hc hmem.symm
          · exact hrec.2 hmem

theorem splitToken_spec {l t r : List Char} (h : splitToken l = some (t, r)) :
    l = t ++ '_' :: r ∧ t ≠ [] ∧ '_' ∉ t := by
  unfold splitToken at h
  rcases ha : splitTokenAux l with _ | ⟨t', r'⟩
  · rw [ha] at h
    cases h
  · rw [ha] at h
    dsimp only at h
    by_cases ht : t' = []
    · rw [if_pos ht] at h
      cases h
    · rw [if_neg ht] at h
      simp only [Option.some.injEq, Prod.mk.injEq] at h
      obtain ⟨rfl, rfl⟩ := h
      have hrec := splitTokenAux_spec ha
      exact ⟨hrec.1, ht, hrec.2⟩

theorem repAt_spec {ds rest : List Char} {rp : List Char} {rn : Bool}
    (h : repAt ds rest = some (rp, rn)) :
    rp = ds ∧
      ((rn = true ∧ startsCI "_rerun".toList rest = true ∧ fqTailOK (rest.drop 6) = true) ∨
       (rn = false ∧ fqTailOK rest = true)) := by
  unfold repAt at h
  split_ifs at h with h1 h2
  · simp only [Option.some.injEq, Prod.mk.injEq] at h
    obtain ⟨rfl, hrn⟩ := h
    rw [Bool.and_eq_true] at h1
    exact ⟨rfl, Or.inl ⟨hrn.symm, h1.1, h1.2⟩⟩
  · simp only [Option.some.injEq, Prod.mk.injEq] at h
    obtain ⟨rfl, hrn⟩ := h
    exact ⟨rfl, Or.inr ⟨hrn.symm, h2⟩⟩

theorem repGo_spec : ∀ (rds rest : List Char) {rp : List Char} {rn : Bool},
    repGo rds rest = some (rp, rn) → rds.all Char.isDigit = true →
    ∃ tail, rds.reverse ++ rest = rp ++ tail ∧ rp ≠ [] ∧ rp.all Char.isDigit = true ∧
      ((rn = true ∧ startsCI "_rerun".toList tail = true ∧ fqTailOK (tail.drop 6) = true) ∨
       (rn = false ∧ fqTailOK tail = true))
  | [], _, _, _, h, _ => by cases h
  | d :: rds, rest, rp, rn, h, hdig => by
    rw [repGo] at h
    rcases ha : repAt (d :: rds).reverse rest with _ | pr
    · rw [ha] at h
      rw [List.all_cons, Bool.and_eq_true] at hdig
      obtain ⟨tail, heq, hne, hdig2, hcases⟩ :=
        repGo_spec rds (d :: rest) h hdig.2
      refine ⟨tail, ?_, hne, hdig2, hcases⟩
      rw [List.reverse_cons, List.append_assoc]
      exact heq
    · rw [ha] at h
      injection h with h
      subst h
      obtain ⟨hrp, hcases⟩ := repAt_spec ha
      refine ⟨rest, by rw [hrp], ?_, ?_, hcases⟩
      · rw [hrp, List.reverse_cons]
        intro hnil
        exact absurd (List.append_eq_nil.mp hnil).2 (by simp)
      · rw [hrp, List.all_reverse]
        exact hdig

theorem repStage_spec {t : List Char} {rp : List Char} {rn : Bool}
    (h : repStage t = some (rp, rn)) :
    ∃ tail, t = rp ++ tail ∧ rp ≠ [] ∧ rp.all Char.isDigit = true ∧
      ((rn = true ∧ startsCI "_rerun".toList tail = true ∧ fqTailOK (tail.drop 6) = true) ∨
       (rn = false ∧ fqTailOK tail = true)) := by
  unfold repStage at h
  rcases htd : takeDigits t with ⟨ds, rest⟩
  rw [htd] at h
  dsimp only at h
  have hds := takeDigits_spec t
  rw [htd] at hds
  have hrev : ds.reverse.all Char.isDigit = true := by
    rw [List.all_reverse]
    exact hds.2
  obtain ⟨tail, heq, hne, hdig, hcases⟩ := repGo_spec ds.reverse rest h hrev
  rw [List.reverse_reverse] at heq
  refine ⟨tail, ?_, hne, hdig, hcases⟩
  rw [show t = ds ++ rest from hds.1]
  exact heq

theorem option_orElse_eq_some {α : Type} {a b : Option α} {x : α}
    (h : (a <|> b) = some x) : a = some x ∨ (a = none ∧ b = some x) := by
  rcases a with _ | y
  · right
    refine ⟨rfl, ?_⟩
    simpa using h
  · left
    simpa using h

/-- The data recovered from a successful three-token (generation present)
or two-token parse after `Day{day}_`. -/
theorem afterDayTokens_spec {rest : List Char} {g : Option (List Char)}
    {v t rp : List Char} {rn : Bool}
    (h : afterDayTokens rest = some (g, v, t, rp, rn)) :
    ∃ tail,
      rest = (match g with
        | some ge => ge ++ '_' :: (v ++ '_' :: (t ++ '_' :: (rp ++ tail)))
        | none => v ++ '_' :: (t ++ '_' :: (rp ++ tail))) ∧
      (∀ ge, g = some ge → ge ≠ [] ∧ '_' ∉ ge) ∧
      v ≠ [] ∧ '_' ∉ v ∧ t ≠ [] ∧ '_' ∉ t ∧
      rp ≠ [] ∧ rp.all Char.isDigit = true ∧
      ((rn = true ∧ startsCI "_rerun".toList tail = true ∧ fqTailOK (tail.drop 6) = true) ∨
       (rn = false ∧ fqTailOK tail = true)) := by
  unfold afterDayTokens at h
  simp only [Option.bind_eq_bind] at h
  rcases option_orElse_eq_some h with h3 | ⟨_, h2⟩
  · -- generation-present branch
    rcases hs1 : splitToken rest with _ | ⟨g1, r1⟩ <;> rw [hs1] at h3 <;>
        simp only [Option.none_bind, Option.some_bind] at h3
    · cases h3
    · rcases hs2 : splitToken r1 with _ | ⟨v2, r2⟩ <;> rw [hs2] at h3 <;>
          simp only [Option.none_bind, Option.some_bind] at h3
      · cases h3
      · rcases hs3 : splitToken r2 with _ | ⟨t3, r3⟩ <;> rw [hs3] at h3 <;>
            simp only [Option.none_bind, Option.some_bind] at h3
        · cases h3
        · rcases hs4 : repStage r3 with _ | ⟨rp4, rn4⟩ <;> rw [hs4] at h3 <;>
              simp only [Option.none_bind, Option.some_bind] at h3
          · cases h3
          · simp only [Option.pure_def, Option.some.injEq,
              Prod.mk.injEq] at h3
            obtain ⟨hg, hv, ht, hrp, hrn⟩ := h3
            subst hg; subst hv; subst ht; subst hrp; subst hrn
            obtain ⟨e1, n1, u1⟩ := splitToken_spec hs1
            obtain ⟨e2, n2, u2⟩ := splitToken_spec hs2
            obtain ⟨e3, n3, u3⟩ := splitToken_spec hs3
            obtain ⟨tail, e4, n4, d4, c4⟩ := repStage_spec hs4
            refine ⟨tail, ?_, ?_, n2, u2, n3, u3, n4, d4, c4⟩
            · show rest = g1 ++ '_' :: (v2 ++ '_' :: (t3 ++ '_' :: (rp4 ++ tail)))
              rw [e1, e2, e3, e4]
            · intro ge hge
              injection hge with hge
              subst hge
              exact ⟨n1, u1⟩
  · -- generation-absent branch
    rcases hs1 : splitToken rest with _ | ⟨v1, r1⟩ <;> rw [hs1] at h2 <;>
        simp only [Option.none_bind, Option.some_bind] at h2
    · cases h2
    · rcases hs2 : splitToken r1 with _ | ⟨t2, r2⟩ <;> rw [hs2] at h2 <;>
          simp only [Option.none_bind, Option.some_bind] at h2
      · cases h2
      · rcases hs3 : repStage r2 with _ | ⟨rp3, rn3⟩ <;> rw [hs3] at h2 <;>
            simp only [Option.none_bind, Option.some_bind] at h2
        · cases h2
        · simp only [Option.pure_def, Option.some.injEq,
            Prod.mk.injEq] at h2
          obtain ⟨hg, hv, ht, hrp, hrn⟩ := h2
          subst hv; subst ht; subst hrp; subst hrn
          obtain ⟨e1, n1, u1⟩ := splitToken_spec hs1
          obtain ⟨e2, n2, u2⟩ := splitToken_spec hs2
          obtain ⟨tail, e3, n3, d3, c3⟩ := repStage_spec hs3
          refine ⟨tail, ?_, ?_, n1, u1, n2, u2, n3, d3, c3⟩
          · rw [← hg]
            show rest = v1 ++ '_' :: (t2 ++ '_' :: (rp3 ++ tail))
            rw [e1, e2, e3]
          · intro ge hge
            rw [← hg] at hge
            cases hge

/-- The decomposition of a filename prescribed by the classifier grammar
`^Day(\d+)_([^_]+_)?([^_]+)_([^_]+)_(\d+)(_rerun)?.*\.fastq(\.gz)?$`
(case-insensitive), with the captured groups of `g`. -/
def decompOK (name : String) (g : FastqGroups) : Prop :=
  ∃ dayw rest tail,
    name.toList = dayw ++ g.day ++ '_' :: rest ∧
    lowEq dayw "Day".toList ∧ dayw.length = 3 ∧
    g.day ≠ [] ∧ g.day.all Char.isDigit = true ∧
    rest = (match g.gen with
      | some ge => ge ++ '_' :: (g.variant ++ '_' :: (g.treat ++ '_' :: (g.rep ++ tail)))
      | none => g.variant ++ '_' :: (g.treat ++ '_' :: (g.rep ++ tail))) ∧
    (∀ ge, g.gen = some ge → ge ≠ [] ∧ '_' ∉ ge) ∧
    g.variant ≠ [] ∧ '_' ∉ g.variant ∧
    g.treat ≠ [] ∧ '_' ∉ g.treat ∧
    g.rep ≠ [] ∧ g.rep.all Char.isDigit = true ∧
    ((g.rerun = true ∧ startsCI "_rerun".toList tail = true ∧
        fqTailOK (tail.drop 6) = true) ∨
     (g.rerun = false ∧ fqTailOK tail = true))

/-- A successful match decomposes the filename per the grammar. -/
theorem fastqMatch_spec {name : String} {g : FastqGroups}
    (h : fastqMatch name = some g) : decompOK name g := by
  unfold fastqMatch at h
  by_cases hd : startsCI "Day".toList name.toList
  · rw [if_pos hd] at h
    rcases htd : takeDigits (name.toList.drop 3) with ⟨ds, r'⟩
    rw [htd] at h
    dsimp only at h
    by_cases hds : ds.isEmpty
    · rw [if_pos hds] at h
      cases h
    · rw [if_neg hds] at h
      rcases r' with _ | ⟨c, rest⟩
      · cases h
      · dsimp only at h
        by_cases hc : c = '_'
        · rw [if_pos hc] at h
          subst hc
          rcases had : afterDayTokens rest with _ | ⟨gen, v, t, rp, rn⟩ <;> rw [had] at h
          · cases h
          · injection h with h
            subst h
            obtain ⟨tail, hrest, hgen, hv, hu, ht, hut, hrp, hdig, hcases⟩ :=
              afterDayTokens_spec had
            have hday := startsCI_spec "Day".toList name.toList hd
            have hdrop := takeDigits_spec (name.toList.drop 3)
            rw [htd] at hdrop
            refine ⟨name.toList.take 3, rest, tail, ?_, hday.1, ?_, ?_, ?_,
              hrest, hgen, hv, hu, ht, hut, hrp, hdig, hcases⟩
            · conv_lhs => rw [← List.take_append_drop 3 name.toList]
              rw [show name.toList.drop 3 = ds ++ '_' :: rest from hdrop.1]
              rw [List.append_assoc]
            · rw [List.length_take]
              exact Nat.min_eq_left hday.2
            · exact List.isEmpty_eq_false.mp (by revert hds; cases ds.isEmpty <;> simp)
            · exact hdrop.2
        · rw [if_neg hc] at h
          cases h
  · rw [if_neg hd] at h
    cases h

/-- The treatment tag built from a successful match: the day digits, the
lower-cased treatment token, and the rerun suffix when captured. -/
def tagOf (g : FastqGroups) : String :=
  "Day" ++ String.mk g.day ++ "_" ++ String.mk (g.treat.map Char.toLower) ++
    (if g.rerun then "_rerun" else "")

/-- C5: the classifier is deterministic and total.  A name the grammar
accepts (`fastqMatch` succeeds, and the match decomposes the name per the
grammar) yields exactly the pair `(Replica-<rep>, Day<day>_<treatment>)`
with the treatment token lower-cased and `_rerun` appended exactly when
the rerun marker was captured; every non-matching name yields the `none`
sentinel, never an exception. -/
theorem C5_classifier_total (name : String) :
    (fastqMatch name = none → parse_fastq_metadata name = none) ∧
    (∀ g, fastqMatch name = some g →
      decompOK name g ∧
      parse_fastq_metadata name = some ("Replica-" ++ String.mk g.rep, tagOf g)) := by
  constructor
  · intro h
    unfold parse_fastq_metadata
    rw [h]
    rfl
  · intro g hg
    have hspec := fastqMatch_spec hg
    refine ⟨hspec, ?_⟩
    obtain ⟨dayw, rest, tail, h1, h2, h3, h4, h5, h6, h7, h8, h9, h10, h11, h12,
      h13, h14⟩ := hspec
    unfold parse_fastq_metadata
    rw [hg]
    simp only [Option.map_some']
    have hie : g.treat.isEmpty = false := by
      rw [List.isEmpty_eq_false]
      exact h10
    rw [hie]
    rfl

/-- Witness for C5 at a matching concrete filename. -/
theorem C5_classifier_total_witness :
    parse_fastq_metadata "Day3_VarA_drug_2_rerun.fastq.gz" =
      some ("Replica-2", "Day3_drug_rerun") := by
  have h := ((C5_classifier_total "Day3_VarA_drug_2_rerun.fastq.gz").2
    ⟨['3'], none, ['V', 'a', 'r', 'A'], ['d', 'r', 'u', 'g'], ['2'], true⟩
    (by decide)).2
  rw [h]
  decide

/-! ### Locating `untreated` inside a produced tag (for C8) -/

theorem prefix_split : ∀ {u A B : List Char} {sep : Char},
    u <+: A ++ sep :: B → sep ∉ u → u <+: A
  | [], _, _, _, _, _ => List.nil_prefix
  | x :: u', A, B, sep, h, hsep => by
    rcases A with _ | ⟨a, A'⟩
    · obtain ⟨t, ht⟩ := h
      rw [List.nil_append, List.cons_append] at ht
      injection ht with hx _
      exact absurd (by rw [← hx]; exact List.mem_cons_self x u' : sep ∈ x :: u') hsep
    · obtain ⟨t, ht⟩ := h
      rw [List.cons_append, List.cons_append] at ht
      injection ht with hx hrest
      subst hx
      obtain ⟨t', ht'⟩ :=
        prefix_split ⟨t, hrest⟩ (fun hm => hsep (List.mem_cons_of_mem _ hm))
      exact ⟨t', by rw [List.cons_append, ht']⟩

theorem infix_split {u : List Char} (A : List Char) {B : List Char} {sep : Char}
    (h : u <:+: A ++ sep :: B) (hsep : sep ∉ u) : u <:+: A ∨ u <:+: B := by
  induction A generalizing u with
  | nil =>
    obtain ⟨s, t, hst⟩ := h
    rcases s with _ | ⟨c, s'⟩
    · rcases u with _ | ⟨x, u'⟩
      · exact Or.inl List.nil_infix
      · rw [List.nil_append, List.nil_append, List.cons_append] at hst
        injection hst with hx _
        exact absurd (by rw [← hx]; exact List.mem_cons_self x u' : sep ∈ x :: u') hsep
    · rw [List.cons_append, List.nil_append] at hst
      injection hst with _ hrest
      exact Or.inr ⟨s', t, hrest⟩
  | cons a A' ih =>
    obtain ⟨s, t, hst⟩ := h
    rcases s with _ | ⟨c, s'⟩
    · rw [List.nil_append] at hst
      have hpre : u <+: (a :: A') ++ sep :: B := ⟨t, by rw [hst]⟩
      exact Or.inl (prefix_split hpre hsep).isInfix
    · rw [List.cons_append] at hst
      injection hst with _ hrest
      rcases ih ⟨s', t, hrest⟩ hsep with h' | h'
      · exact Or.inl (List.infix_cons h')
      · exact Or.inr h'

theorem tagOf_data (g : FastqGroups) :
    (tagOf g).data = ("Day".data ++ g.day) ++ '_' ::
      (g.treat.map Char.toLower ++ (if g.rerun then "_rerun".data else [])) := by
  unfold tagOf
  rcases g.rerun
  · simp [String.data_append]
  · simp [String.data_append]

theorem treat_infix_of_decomp {name : String} {g : FastqGroups}
    (h : decompOK name g) : ∃ P Q, name.toList = P ++ g.treat ++ Q := by
  obtain ⟨dayw, rest, tail, h1, _, _, _, _, h6, _⟩ := h
  rcases hgen : g.gen with _ | ge <;> rw [hgen] at h6
  · refine ⟨dayw ++ g.day ++ '_' :: g.variant ++ ['_'], '_' :: (g.rep ++ tail), ?_⟩
    rw [h1, h6]
    simp [List.append_assoc]
  · refine ⟨dayw ++ g.day ++ '_' :: ge ++ '_' :: g.variant ++ ['_'],
      '_' :: (g.rep ++ tail), ?_⟩
    rw [h1, h6]
    simp [List.append_assoc]

/-- C8: the treatment group is `[^_]+`, hence never empty, so the
`or "untreated"` default is unreachable — the produced tag embeds the
lower-cased captured token itself — and `untreated` occurs in the tag
only when the (lower-cased) filename contains it. -/
theorem C8_untreated_default_unreachable (name : String) (g : FastqGroups)
    (h : fastqMatch name = some g) :
    g.treat ≠ [] ∧
    (if g.treat.isEmpty then "untreated".toList else g.treat) = g.treat ∧
    parse_fastq_metadata name = some ("Replica-" ++ String.mk g.rep, tagOf g) ∧
    ("untreated".data <:+: (tagOf g).data →
      "untreated".data <:+: name.toList.map Char.toLower) := by
  have hspec := fastqMatch_spec h
  obtain ⟨dayw, rest, tail, h1, h2, h3, h4, h5, h6, h7, h8, h9, h10, h11, h12,
    h13, h14⟩ := hspec
  have hie : g.treat.isEmpty = false := by
    rw [List.isEmpty_eq_false]
    exact h10
  refine ⟨h10, by rw [hie]; rfl, ((C5_classifier_total name).2 g h).2, ?_⟩
  intro hinf
  rw [tagOf_data] at hinf
  rcases infix_split _ hinf (by decide) with hcase | hcase
  · exfalso
    have hu : 'u' ∈ "Day".data ++ g.day := hcase.subset (by decide)
    rcases List.mem_append.mp hu with hu | hu
    · revert hu
      decide
    · have := List.all_eq_true.mp h5 _ hu
      revert this
      decide
  · have htreat : "untreated".data <:+: g.treat.map Char.toLower := by
      rcases hb : g.rerun <;> rw [hb] at hcase
      · simpa using hcase
      · have : "_rerun".data = '_' :: "rerun".data := by decide
        rw [this] at hcase
        rcases infix_split _ hcase (by decide) with h' | h'
        · exact h'
        · exfalso
          have := h'.length_le
          revert this
          decide
    obtain ⟨P, Q, hPQ⟩ := treat_infix_of_decomp ⟨dayw, rest, tail, h1, h2, h3, h4,
      h5, h6, h7, h8, h9, h10, h11, h12, h13, h14⟩
    obtain ⟨s, t, hst⟩ := htreat
    refine ⟨P.map Char.toLower ++ s, t ++ Q.map Char.toLower, ?_⟩
    rw [hPQ]
    simp only [List.map_append]
    rw [← hst]
    simp [List.append_assoc]

/-- Witness for C8 at a concrete filename whose treatment token is
`UNtreated` (so the token itself, lower-cased, lands in the tag, and the
theorem places it inside the lower-cased filename). -/
theorem C8_untreated_default_unreachable_witness :
    "untreated".data <:+: "Day1_v_UNtreated_2.fastq.gz".toList.map Char.toLower :=
  (C8_untreated_default_unreachable "Day1_v_UNtreated_2.fastq.gz"
    ⟨['1'], none, ['v'], ['U', 'N', 't', 'r', 'e', 'a', 't', 'e', 'd'], ['2'], false⟩
    (by decide)).2.2.2 (by decide)

/-! ## `pair_fastqs` (modules/runner.py, lines 23-61)

The directory tree is modelled as a list of files, each carrying its
parent-directory path (as the string `str(p.parent)`) and its filename.
`root.rglob("*.fastq.gz")` enumerates exactly the files whose name ends in
`.fastq.gz` (case-sensitively, POSIX), and `sorted(...)` orders them by
the full path string. -/

/-- A file found under the scanned root: parent directory and filename. -/
structure FFile where
  dir : String
  name : String
deriving DecidableEq, Repr

/-- Case-sensitive string suffix test, via the character lists. -/
def strEnds (s suf : String) : Bool := suf.data.isSuffixOf s.data

/-- Case-sensitive string prefix test (`str.startswith`), via the
character lists. -/
def strStarts (s pre : String) : Bool := pre.data.isPrefixOf s.data

/-- The full path string of a file, as compared by `sorted(...)` on `Path`s. -/
def pathStr (f : FFile) : String := f.dir ++ "/" ++ f.name

/-- Tail acceptance of the `_R12` pattern after the read digit:
`(?:[_-]?\d+)?\.fastq\.gz$` (case-insensitive, anchored). -/
def r12Tail (t : List Char) : Bool :=
  eqCI ".fastq.gz".toList t ||
  (endsCI ".fastq.gz".toList t &&
    (let mid := t.take (t.length - 9)
     let d := match mid with
       | c :: rest => if c = '_' ∨ c = '-' then rest else mid
       | [] => mid
     !d.isEmpty && d.all Char.isDigit))

/-- The `([12])` read group followed by the tail pattern. -/
def r12Read (c : Char) (rest : List Char) : Option Nat :=
  if c = '1' ∧ r12Tail rest then some 1
  else if c = '2' ∧ r12Tail rest then some 2
  else none

/-- The read group when the optional `R` was consumed. -/
def r12ReadL : List Char → Option Nat
  | [] => none
  | d :: rest' => r12Read d rest'

/-- Matches `(?:R)?([12])(?:[_-]?\d+)?\.fastq\.gz$` at the position right
after the underscore that ends the base group.  When the next character is
`R`/`r` the optional group must consume it (skipping it would put `R`
against `[12]`, which always fails). -/
def r12After : List Char → Option Nat
  | [] => none
  | c :: rest =>
    if c = 'R' ∨ c = 'r' then r12ReadL rest else r12Read c rest

/-- The lazy `(.+?)` base group: the shortest nonempty base followed by an
underscore whose remainder matches is taken, scanning left to right.
`acc` holds the reversed base candidate. -/
def r12Go (acc rem : List Char) : Option (List Char × Nat) :=
  match rem with
  | [] => none
  | c :: rest =>
    if c = '_' ∧ acc ≠ [] then
      match r12After rest with
      | some rd => some (acc.reverse, rd)
      | none => r12Go (c :: acc) rest
    else r12Go (c :: acc) rest

/-- Embedding of the module-level `_R12` regex
`^(?P<base>.+?)_(?:R)?(?P<read>[12])(?:[_-]?\d+)?\.fastq\.gz$` (IGNORECASE):
returns the captured base and the read index. -/
def matchR12 (name : String) : Option (String × Nat) :=
  (r12Go [] name.toList).map (fun br => (String.mk br.1, br.2))

example : matchR12 "A_R1.fastq.gz" = some ("A", 1) := by decide
example : matchR12 "S_1_R1_001.fastq.gz" = some ("S_1", 1) := by decide
example : matchR12 "x_r2-07.fastq.gz" = some ("x", 2) := by decide
example : matchR12 "a_R12.fastq.gz" = some ("a", 1) := by decide
example : matchR12 "a_1_2.fastq.gz" = some ("a", 1) := by decide
example : matchR12 "a_3.fastq.gz" = none := by decide
example : matchR12 "a_R1_.fastq.gz" = none := by decide
example : matchR12 "_1.fastq.gz" = none := by decide
example : matchR12 "__R1.fastq.gz" = some ("_", 1) := by decide
example : matchR12 "noread.fastq.gz" = none := by decide
example : matchR12 "a_R1.fastq" = none := by decide

/-- First-match lookup in an association list (a Python dict keyed lookup,
insertion order preserved). -/
def lookupA {α : Type} {β : Type} [DecidableEq α] : List (α × β) → α → Option β
  | [], _ => none
  | kv :: rest, a => if kv.1 = a then some kv.2 else lookupA rest a

/-- `dict.setdefault`: keep the first-seen value for a key. -/
def setd {α β : Type} [DecidableEq α] (m : List (α × β)) (k : α) (v : β) :
    List (α × β) :=
  match lookupA m k with
  | some _ => m
  | none => m ++ [(k, v)]

/-- Strict lexicographic comparison of character lists by code point,
the order Python uses to compare strings and paths. -/
def lexLT : List Char → List Char → Bool
  | [], [] => false
  | [], _ :: _ => true
  | _ :: _, [] => false
  | a :: as, b :: bs =>
    if a.toNat < b.toNat then true
    else if b.toNat < a.toNat then false
    else lexLT as bs

theorem lexLT_asymm : ∀ {a b : List Char}, lexLT a b = true → lexLT b a = true → False
  | [], [], h, _ => by simp [lexLT] at h
  | [], _ :: _, _, h2 => by simp [lexLT] at h2
  | _ :: _, [], h, _ => by simp [lexLT] at h
  | a :: as, b :: bs, h1, h2 => by
    by_cases hab : a.toNat < b.toNat
    · have : ¬ b.toNat < a.toNat := Nat.lt_asymm hab
      simp [lexLT, hab, this] at h2
    · by_cases hba : b.toNat < a.toNat
      · simp [lexLT, hab, hba] at h1
      · simp [lexLT, hab, hba] at h1 h2
        exact lexLT_asymm h1 h2

theorem lexLT_trans : ∀ {a b c : List Char},
    lexLT a b = true → lexLT b c = true → lexLT a c = true
  | [], [], _, h, _ => by simp [lexLT] at h
  | [], _ :: _, [], _, h2 => by simp [lexLT] at h2
  | [], _ :: _, _ :: _, _, _ => by simp [lexLT]
  | _ :: _, [], _, h, _ => by simp [lexLT] at h
  | _ :: _, _ :: _, [], _, h2 => by simp [lexLT] at h2
  | a :: as, b :: bs, c :: cs, h1, h2 => by
    by_cases hab : a.toNat < b.toNat <;> by_cases hbc : b.toNat < c.toNat
    · simp [lexLT, Nat.lt_trans hab hbc]
    · by_cases hcb : c.toNat < b.toNat
      · simp [lexLT, hbc, hcb] at h2
      · have hbc' : b.toNat = c.toNat := Nat.le_antisymm (Nat.le_of_not_lt hcb) (Nat.le_of_not_lt hbc)
        simp [lexLT, hbc' ▸ hab]
    · by_cases hba : b.toNat < a.toNat
      · simp [lexLT, hab, hba] at h1
      · have hab' : a.toNat = b.toNat := Nat.le_antisymm (Nat.le_of_not_lt hba) (Nat.le_of_not_lt hab)
        simp [lexLT, hab' ▸ hbc]
    · by_cases hba : b.toNat < a.toNat
      · simp [lexLT, hab, hba] at h1
      · by_cases hcb : c.toNat < b.toNat
        · simp [lexLT, hbc, hcb] at h2
        · have hab' : a.toNat = b.toNat := Nat.le_antisymm (Nat.le_of_not_lt hba) (Nat.le_of_not_lt hab)
          have hbc' : b.toNat = c.toNat := Nat.le_antisymm (Nat.le_of_not_lt hcb) (Nat.le_of_not_lt hbc)
          have hac : ¬ a.toNat < c.toNat := by omega
          have hca : ¬ c.toNat < a.toNat := by omega
          simp only [lexLT, if_neg hab, if_neg hba] at h1
          simp only [lexLT, if_neg hbc, if_neg hcb] at h2
          simp only [lexLT, if_neg hac, if_neg hca]
          exact lexLT_trans h1 h2

theorem Char.eq_of_toNat_eq {a b : Char} (h : a.toNat = b.toNat) : a = b := by
  have : a.val = b.val := by
    apply UInt32.eq_of_val_eq
    exact Fin.ext (by simpa [Char.toNat, UInt32.toNat] using h)
  cases a; cases b; simp_all

theorem lexLT_connex : ∀ {a b : List Char},
    lexLT a b = false → lexLT b a = false → a = b
  | [], [], _, _ => rfl
  | [], _ :: _, h, _ => by simp [lexLT] at h
  | _ :: _, [], _, h2 => by simp [lexLT] at h2
  | a :: as, b :: bs, h1, h2 => by
    by_cases hab : a.toNat < b.toNat
    · simp [lexLT, hab] at h1
    · by_cases hba : b.toNat < a.toNat
      · simp [lexLT, hab, hba] at h2
      · have : a = b := Char.eq_of_toNat_eq (Nat.le_antisymm (Nat.le_of_not_lt hba) (Nat.le_of_not_lt hab))
        simp only [lexLT, if_neg hab, if_neg hba] at h1
        simp only [lexLT, if_neg hba, if_neg hab] at h2
        rw [this, lexLT_connex h1 h2]

/-- Strict and non-strict string comparison by code points (Python order). -/
def strLTb (a b : String) : Bool := lexLT a.data b.data

def strLEb (a b : String) : Bool := !(lexLT b.data a.data)

theorem strLEb_total (a b : String) : strLEb a b = true ∨ strLEb b a = true := by
  by_cases h : lexLT b.data a.data
  · right
    have : lexLT a.data b.data = false := by
      by_contra hc
      exact lexLT_asymm (by revert hc; cases lexLT a.data b.data <;> simp) h
    simp [strLEb, this]
  · left
    simp [strLEb, Bool.not_eq_true] at h ⊢
    exact h

theorem strLEb_trans {a b c : String} (h1 : strLEb a b = true) (h2 : strLEb b c = true) :
    strLEb a c = true := by
  simp only [strLEb, Bool.not_eq_true'] at h1 h2 ⊢
  by_contra hc
  have hca : lexLT c.data a.data = true := by revert hc; cases lexLT c.data a.data <;> simp
  by_cases hab : lexLT a.data b.data
  · exact absurd (lexLT_trans hca hab) (by simp [h2])
  · have : a.data = b.data := lexLT_connex (by revert hab; cases lexLT a.data b.data <;> simp) h1
    rw [this] at hca
    simp [hca] at h2

theorem strEq_of_not_lt {a b : String} (h1 : strLTb a b = false) (h2 : strLTb b a = false) :
    a = b := by
  exact congrArg String.mk (lexLT_connex h1 h2)

/-- Pairing key `(directory, base)` and its order (Python compares the
`(Path, str)` tuples lexicographically; `Path` order is path-string order). -/
abbrev PKey := String × String

def keyLE (a b : PKey) : Prop :=
  (strLTb a.1 b.1 || (a.1 == b.1 && strLEb a.2 b.2)) = true

instance : DecidableRel keyLE := fun a b =>
  inferInstanceAs (Decidable (_ = true))

instance : IsTotal PKey keyLE where
  total a b := by
    by_cases h1 : strLTb a.1 b.1
    · exact Or.inl (by simp [keyLE, h1])
    · by_cases h2 : strLTb b.1 a.1
      · exact Or.inr (by simp [keyLE, h2])
      · have he : a.1 = b.1 :=
          strEq_of_not_lt (by revert h1; cases strLTb a.1 b.1 <;> simp)
            (by revert h2; cases strLTb b.1 a.1 <;> simp)
        rcases strLEb_total a.2 b.2 with h | h
        · exact Or.inl (by simp [keyLE, he, h])
        · exact Or.inr (by simp [keyLE, he.symm, h])

instance : IsTrans PKey keyLE where
  trans a b c hab hbc := by
    simp only [keyLE, Bool.or_eq_true, Bool.and_eq_true, beq_iff_eq] at hab hbc ⊢
    rcases hab with h1 | ⟨e1, l1⟩
    · rcases hbc with h2 | ⟨e2, _⟩
      · exact Or.inl (lexLT_trans h1 h2)
      · exact Or.inl (e2 ▸ h1)
    · rcases hbc with h2 | ⟨e2, l2⟩
      · exact Or.inl (e1 ▸ h2)
      · exact Or.inr ⟨e1.trans e2, strLEb_trans l1 l2⟩

/-- Order on scanned files: by full path string (`sorted(root.rglob(...))`). -/
def fileLE (a b : FFile) : Prop := strLEb (pathStr a) (pathStr b) = true

instance : DecidableRel fileLE := fun a b =>
  inferInstanceAs (Decidable (_ = true))

instance : IsTotal FFile fileLE := ⟨fun a b => strLEb_total (pathStr a) (pathStr b)⟩

instance : IsTrans FFile fileLE := ⟨fun _ _ _ h1 h2 => strLEb_trans h1 h2⟩

/-- Order on `(key, file)` map items: by key (`sorted(r1_map.items())`;
keys are unique, so the file component never decides a comparison). -/
def itemLE (a b : PKey × FFile) : Prop := keyLE a.1 b.1

instance : DecidableRel itemLE := fun a b => inferInstanceAs (Decidable (keyLE a.1 b.1))

instance : IsTotal (PKey × FFile) itemLE := ⟨fun a b => IsTotal.total (r := keyLE) a.1 b.1⟩

instance : IsTrans (PKey × FFile) itemLE :=
  ⟨fun _ _ _ h1 h2 => IsTrans.trans (r := keyLE) _ _ _ h1 h2⟩

/-- One output entry `(sample_name, r1_path, r2_path_or_None)`. -/
structure PairEntry where
  sample : String
  r1 : FFile
  r2 : Option FFile
deriving DecidableEq, Repr

/-- The fold step of the scanning loop in `pair_fastqs`: files whose name
the `_R12` regex rejects are skipped; otherwise the file is entered in the
R1 or R2 map under `(parent, base)` with first-seen-wins. -/
def pairStep (ms : List (PKey × FFile) × List (PKey × FFile)) (f : FFile) :
    List (PKey × FFile) × List (PKey × FFile) :=
  match matchR12 f.name with
  | none => ms
  | some (b, rd) =>
    if rd = 1 then (setd ms.1 (f.dir, b) f, ms.2) else (ms.1, setd ms.2 (f.dir, b) f)

/-- Embedding of `pair_fastqs` (runner.py lines 23-61). -/
def pair_fastqs (files : List FFile) : List PairEntry :=
  let walked := List.insertionSort fileLE (files.filter (fun f => strEnds f.name ".fastq.gz"))
  let ms := walked.foldl pairStep ([], [])
  (List.insertionSort itemLE ms.1).map
    (fun kv => ⟨kv.1.2, kv.2, lookupA ms.2 kv.1⟩)

example :
    pair_fastqs [⟨"r", "A_R1.fastq.gz"⟩, ⟨"r", "A_R2.fastq.gz"⟩, ⟨"r", "B_1.fastq.gz"⟩] =
      [⟨"A", ⟨"r", "A_R1.fastq.gz"⟩, some ⟨"r", "A_R2.fastq.gz"⟩⟩,
       ⟨"B", ⟨"r", "B_1.fastq.gz"⟩, none⟩] := by decide

example :
    pair_fastqs [⟨"r", "A_R2.fastq.gz"⟩] = [] := by decide

/-! ### Invariants of the pairing maps -/

theorem lookupA_mem {α β : Type} [DecidableEq α] :
    ∀ {m : List (α × β)} {k : α} {v : β}, lookupA m k = some v → (k, v) ∈ m
  | [], _, _, h => by simp [lookupA] at h
  | kv :: rest, k, v, h => by
    by_cases hk : kv.1 = k
    · rw [lookupA, if_pos hk] at h
      subst hk
      injection h with h
      subst h
      exact List.mem_cons_self _ _
    · rw [lookupA, if_neg hk] at h
      exact List.mem_cons_of_mem _ (lookupA_mem h)

theorem lookupA_none {α β : Type} [DecidableEq α] :
    ∀ {m : List (α × β)} {k : α}, lookupA m k = none → k ∉ m.map Prod.fst
  | [], _, _ => by simp
  | kv :: rest, k, h => by
    by_cases hk : kv.1 = k
    · rw [lookupA, if_pos hk] at h
      cases h
    · rw [lookupA, if_neg hk] at h
      simp only [List.map_cons, List.mem_cons]
      rintro (h1 | h1)
      · exact hk h1.symm
      · exact lookupA_none h h1

theorem r12Read_read {c : Char} {rest : List Char} {rd : Nat}
    (h : r12Read c rest = some rd) : rd = 1 ∨ rd = 2 := by
  unfold r12Read at h
  split_ifs at h
  · exact Or.inl (Option.some.inj h).symm
  · exact Or.inr (Option.some.inj h).symm

theorem r12After_read {t : List Char} {rd : Nat} (h : r12After t = some rd) :
    rd = 1 ∨ rd = 2 := by
  rcases t with _ | ⟨c, rest⟩
  · simp [r12After] at h
  · simp only [r12After] at h
    by_cases hr : c = 'R' ∨ c = 'r'
    · rw [if_pos hr] at h
      rcases rest with _ | ⟨d, rest'⟩
      · exact Option.noConfusion h
      · exact r12Read_read h
    · rw [if_neg hr] at h
      exact r12Read_read h

theorem r12Go_read : ∀ {acc rem : List Char} {b : List Char} {rd : Nat},
    r12Go acc rem = some (b, rd) → rd = 1 ∨ rd = 2
  | _, [], _, _, h => by cases h
  | acc, c :: rest, b, rd, h => by
    simp only [r12Go] at h
    by_cases hc : c = '_' ∧ acc ≠ []
    · rw [if_pos hc] at h
      rcases ha : r12After rest with _ | rd'
      · rw [ha] at h
        exact r12Go_read h
      · rw [ha] at h
        cases h
        exact r12After_read ha
    · rw [if_neg hc] at h
      exact r12Go_read h

theorem matchR12_read {name : String} {b : String} {rd : Nat}
    (h : matchR12 name = some (b, rd)) : rd = 1 ∨ rd = 2 := by
  unfold matchR12 at h
  rcases hg : r12Go [] name.toList with _ | ⟨b', rd'⟩
  · rw [hg] at h; cases h
  · rw [hg] at h
    cases h
    exact r12Go_read hg

/-- Invariant of one pairing map: every stored entry is a scanned file of
the tree whose name the `_R12` regex accepts with the entry's key and
the map's read index, and keys are unique. -/
def MapInv (files : List FFile) (rd : Nat) (m : List (PKey × FFile)) : Prop :=
  (∀ kv ∈ m, kv.2 ∈ files ∧ strEnds kv.2.name ".fastq.gz" = true ∧
     kv.2.dir = kv.1.1 ∧ matchR12 kv.2.name = some (kv.1.2, rd)) ∧
  (m.map Prod.fst).Nodup

theorem MapInv_setd {files : List FFile} {rd : Nat} {m : List (PKey × FFile)}
    (hm : MapInv files rd m) {k : PKey} {v : FFile}
    (hv : v ∈ files ∧ strEnds v.name ".fastq.gz" = true ∧
      v.dir = k.1 ∧ matchR12 v.name = some (k.2, rd)) :
    MapInv files rd (setd m k v) := by
  unfold setd
  rcases hl : lookupA m k with _ | v'
  · constructor
    · intro kv hkv
      rcases List.mem_append.mp hkv with h | h
      · exact hm.1 kv h
      · simp only [List.mem_singleton] at h
        subst h
        exact hv
    · rw [List.map_append]
      rw [List.nodup_append]
      refine ⟨hm.2, List.nodup_singleton _, ?_⟩
      intro x hx hx'
      simp only [List.map_cons, List.map_nil, List.mem_singleton] at hx'
      subst hx'
      exact lookupA_none hl hx
  · exact hm

theorem foldl_pairStep_inv (files : List FFile) :
    ∀ (ws : List FFile) (ms : List (PKey × FFile) × List (PKey × FFile)),
      (∀ f ∈ ws, f ∈ files ∧ strEnds f.name ".fastq.gz" = true) →
      MapInv files 1 ms.1 → MapInv files 2 ms.2 →
      MapInv files 1 (ws.foldl pairStep ms).1 ∧ MapInv files 2 (ws.foldl pairStep ms).2
  | [], ms, _, h1, h2 => ⟨h1, h2⟩
  | f :: ws, ms, hws, h1, h2 => by
    rw [List.foldl_cons]
    have hf := hws f (List.mem_cons_self _ _)
    have hws' : ∀ g ∈ ws, g ∈ files ∧ strEnds g.name ".fastq.gz" = true :=
      fun g hg => hws g (List.mem_cons_of_mem _ hg)
    have hstep1 : MapInv files 1 (pairStep ms f).1 ∧ MapInv files 2 (pairStep ms f).2 := by
      rcases hm : matchR12 f.name with _ | ⟨b, rd⟩
      · have hps : pairStep ms f = ms := by unfold pairStep; rw [hm]
        rw [hps]
        exact ⟨h1, h2⟩
      · rcases matchR12_read hm with hrd | hrd
        · subst hrd
          have hps : pairStep ms f = (setd ms.1 (f.dir, b) f, ms.2) := by
            unfold pairStep
            rw [hm]
            rfl
          rw [hps]
          exact ⟨MapInv_setd h1 ⟨hf.1, hf.2, rfl, hm⟩, h2⟩
        · subst hrd
          have hps : pairStep ms f = (ms.1, setd ms.2 (f.dir, b) f) := by
            unfold pairStep
            rw [hm]
            rfl
          rw [hps]
          exact ⟨h1, MapInv_setd h2 ⟨hf.1, hf.2, rfl, hm⟩⟩
    exact foldl_pairStep_inv files ws (pairStep ms f) hws' hstep1.1 hstep1.2

/-- Specification of `pair_fastqs` used by several claims: the output is
sorted by key with no duplicate key; every entry's R1 is a scanned
`.fastq.gz` file of the tree that the `_R12` regex accepts as read 1 with
the entry's base, and every present R2 is such a file from the same
directory accepted as read 2 with the same base. -/
theorem pair_fastqs_spec (files : List FFile) :
    (((pair_fastqs files).map (fun e => (e.r1.dir, e.sample))).Pairwise keyLE ∧
     ((pair_fastqs files).map (fun e => (e.r1.dir, e.sample))).Nodup) ∧
    (∀ e ∈ pair_fastqs files, e.r1 ∈ files ∧ strEnds e.r1.name ".fastq.gz" = true ∧
       matchR12 e.r1.name = some (e.sample, 1)) ∧
    (∀ e ∈ pair_fastqs files, ∀ f2, e.r2 = some f2 →
       f2 ∈ files ∧ strEnds f2.name ".fastq.gz" = true ∧
       f2.dir = e.r1.dir ∧ matchR12 f2.name = some (e.sample, 2)) := by
  have hwalked : ∀ f ∈ List.insertionSort fileLE
      (files.filter (fun f => strEnds f.name ".fastq.gz")),
      f ∈ files ∧ strEnds f.name ".fastq.gz" = true := by
    intro f hf
    have hf' := (List.perm_insertionSort fileLE _).mem_iff.mp hf
    exact ⟨(List.mem_filter.mp hf').1, (List.mem_filter.mp hf').2⟩
  have hinv := foldl_pairStep_inv files _ ([], []) hwalked
    ⟨(by simp), List.nodup_nil⟩ ⟨(by simp), List.nodup_nil⟩
  set ms := (List.insertionSort fileLE
    (files.filter (fun f => strEnds f.name ".fastq.gz"))).foldl pairStep ([], []) with hms
  have hout : pair_fastqs files = (List.insertionSort itemLE ms.1).map
      (fun kv => ⟨kv.1.2, kv.2, lookupA ms.2 kv.1⟩) := rfl
  have hmemitems : ∀ kv ∈ List.insertionSort itemLE ms.1, kv ∈ ms.1 :=
    fun kv h => (List.perm_insertionSort itemLE ms.1).mem_iff.mp h
  have hentry : ∀ e ∈ pair_fastqs files, ∃ kv ∈ ms.1,
      e = ⟨kv.1.2, kv.2, lookupA ms.2 kv.1⟩ := by
    intro e he
    rw [hout] at he
    obtain ⟨kv, hkv, hkve⟩ := List.mem_map.mp he
    exact ⟨kv, hmemitems kv hkv, hkve.symm⟩
  refine ⟨⟨?_, ?_⟩, ?_, ?_⟩
  · -- sortedness of the output keys
    have hsorted : (List.insertionSort itemLE ms.1).Pairwise itemLE :=
      List.sorted_insertionSort itemLE ms.1
    rw [hout, List.map_map]
    have hkeq : ∀ kv ∈ List.insertionSort itemLE ms.1,
        ((fun e : PairEntry => (e.r1.dir, e.sample)) ∘
          (fun kv : PKey × FFile => PairEntry.mk kv.1.2 kv.2 (lookupA ms.2 kv.1))) kv = kv.1 := by
      intro kv hkv
      have hprops := (hinv.1).1 kv (hmemitems kv hkv)
      show (kv.2.dir, kv.1.2) = kv.1
      rw [hprops.2.2.1]
    rw [List.map_congr_left hkeq]
    exact hsorted.map Prod.fst (fun a b hab => hab)
  · -- no duplicate keys
    have hperm : List.Perm ((List.insertionSort itemLE ms.1).map Prod.fst)
        (ms.1.map Prod.fst) :=
      (List.perm_insertionSort itemLE ms.1).map Prod.fst
    rw [hout, List.map_map]
    have hkeq : ∀ kv ∈ List.insertionSort itemLE ms.1,
        ((fun e : PairEntry => (e.r1.dir, e.sample)) ∘
          (fun kv : PKey × FFile => PairEntry.mk kv.1.2 kv.2 (lookupA ms.2 kv.1))) kv = kv.1 := by
      intro kv hkv
      have hprops := (hinv.1).1 kv (hmemitems kv hkv)
      show (kv.2.dir, kv.1.2) = kv.1
      rw [hprops.2.2.1]
    rw [List.map_congr_left hkeq]
    exact hperm.nodup_iff.mpr (hinv.1).2
  · -- R1 facts
    intro e he
    obtain ⟨kv, hkv, hkve⟩ := hentry e he
    have hprops := (hinv.1).1 kv hkv
    subst hkve
    exact ⟨hprops.1, hprops.2.1, hprops.2.2.2⟩
  · -- R2 facts
    intro e he f2 hf2
    obtain ⟨kv, hkv, hkve⟩ := hentry e he
    have hprops1 := (hinv.1).1 kv hkv
    subst hkve
    have hlk : lookupA ms.2 kv.1 = some f2 := hf2
    have hmem2 := lookupA_mem hlk
    have hprops2 := (hinv.2).1 (kv.1, f2) hmem2
    refine ⟨hprops2.1, hprops2.2.1, ?_, hprops2.2.2.2⟩
    show f2.dir = kv.2.dir
    rw [hprops2.2.2.1, hprops1.2.2.1]

/-- C4: `pair_fastqs` returns at most one entry per `(directory, base)`
key and the entries are sorted by key; every entry has an R1 that the
pairing regex accepts with the entry's base, every present R2 comes from
the same directory with a base identical to its R1's, and a key for which
no R1 file exists produces no entry at all. -/
theorem C4_pairing_invariants (files : List FFile) :
    ((pair_fastqs files).map (fun e => (e.r1.dir, e.sample))).Pairwise keyLE ∧
    ((pair_fastqs files).map (fun e => (e.r1.dir, e.sample))).Nodup ∧
    (∀ e ∈ pair_fastqs files, e.r1 ∈ files ∧
       matchR12 e.r1.name = some (e.sample, 1)) ∧
    (∀ e ∈ pair_fastqs files, ∀ f2, e.r2 = some f2 →
       f2 ∈ files ∧ f2.dir = e.r1.dir ∧ matchR12 f2.name = some (e.sample, 2)) ∧
    (∀ d b, (∀ f ∈ files, ¬(f.dir = d ∧ matchR12 f.name = some (b, 1))) →
       ∀ e ∈ pair_fastqs files, ¬(e.r1.dir = d ∧ e.sample = b)) := by
  obtain ⟨⟨hsort, hnodup⟩, hr1, hr2⟩ := pair_fastqs_spec files
  refine ⟨hsort, hnodup, ?_, ?_, ?_⟩
  · intro e he
    exact ⟨(hr1 e he).1, (hr1 e he).2.2⟩
  · intro e he f2 hf2
    exact ⟨(hr2 e he f2 hf2).1, (hr2 e he f2 hf2).2.2.1, (hr2 e he f2 hf2).2.2.2⟩
  · intro d b hnone e he h
    obtain ⟨hd, hb⟩ := h
    refine hnone e.r1 (hr1 e he).1 ⟨hd, ?_⟩
    rw [← hb]
    exact (hr1 e he).2.2

/-- Witness for C4 on the spec's own example tree
`[A_R1.fastq.gz, A_R2.fastq.gz, B_1.fastq.gz]`. -/
theorem C4_pairing_invariants_witness :
    ¬((PairEntry.mk "A" ⟨"r", "A_R1.fastq.gz"⟩ (some ⟨"r", "A_R2.fastq.gz"⟩)).r1.dir = "r" ∧
      (PairEntry.mk "A" ⟨"r", "A_R1.fastq.gz"⟩ (some ⟨"r", "A_R2.fastq.gz"⟩)).sample = "C") :=
  (C4_pairing_invariants
      [⟨"r", "A_R1.fastq.gz"⟩, ⟨"r", "A_R2.fastq.gz"⟩, ⟨"r", "B_1.fastq.gz"⟩]).2.2.2.2
    "r" "C" (by decide) _ (by decide)

/-! ## `calculate_sensitivity` (modules/utils.py, lines 167-187)

A replicate table is modelled, for the purposes of this function, by the
two columns it reads: `Treatment` and the ratio column `MUT/WT*%`.
The returned pandas Series is a list of optional values, `none` standing
for the null entries.  Ratio values are exact rationals; `round(x, 2)`
is rounding half-to-even at two decimals (the behaviour of Python's
`round`/numpy on the underlying value). -/

/-- One table row as read by `calculate_sensitivity`. -/
structure SensRow where
  treatment : String
  value : Rat
deriving DecidableEq, Repr

/-- Floor of a rational (the denominator is positive, so Euclidean
division of the numerator is floor division). -/
def ratFloor (x : Rat) : Int := x.num.ediv x.den

/-- Round half-to-even to an integer. -/
def roundHalfEven (x : Rat) : Int :=
  let f := ratFloor x
  let r := x - (f : Rat)
  if r < 1/2 then f
  else if 1/2 < r then f + 1
  else if f % 2 = 0 then f else f + 1

/-- Python's `round(x, 2)`. -/
def pyRound2 (x : Rat) : Rat := (roundHalfEven (x * 100) : Rat) / 100

/-- The final two lines of `calculate_sensitivity`: all-null when the
reference value is zero, else the rounded normalized percentages. -/
def sensApply (df : List SensRow) (b : Rat) : List (Option Rat) :=
  if b = 0 then df.map (fun _ => none)
  else df.map (fun r => some (pyRound2 (r.value / b * 100)))

/-- Embedding of `calculate_sensitivity` (utils.py lines 167-187).  The
`df.empty` guard is the empty-list case (the modelled frame always has
the ratio column, so `column not in df.columns` does not arise). -/
def calculate_sensitivity :
    List SensRow → (referenceDay : Option Int) → (referenceTreatment : Option String) →
      List (Option Rat)
  | [], _, _ => []
  | df@(r0 :: _), referenceDay, referenceTreatment =>
    match referenceTreatment with
    | some rt =>
      match df.filter (fun r => r.treatment == rt) with
      | [] => df.map (fun _ => none)
      | s :: _ => sensApply df s.value
    | none =>
      match referenceDay with
      | none => sensApply df r0.value
      | some d =>
        let pref := "Day" ++ toString d ++ "_"
        let exact := "Day" ++ toString d ++ "_untreated"
        let sel := df.filter (fun r => strStarts r.treatment pref)
        let sel := if df.any (fun r => r.treatment == exact)
                   then df.filter (fun r => r.treatment == exact)
                   else sel
        match sel with
        | [] => df.map (fun _ => none)
        | s :: _ => sensApply df s.value

example :
    calculate_sensitivity [⟨"Day3_untreated", 4⟩, ⟨"Day3_drug", 2⟩] (some 3) none =
      [some (pyRound2 ((4:Rat)/4*100)), some (pyRound2 ((2:Rat)/4*100))] := by
  show sensApply _ 4 = _
  rw [sensApply, if_neg (by norm_num)]
  rfl

example :
    calculate_sensitivity [⟨"Day3_a", 4⟩, ⟨"Day3_b", 2⟩] none (some "missing") =
      [none, none] := by decide

example :
    calculate_sensitivity [⟨"Day3_a", 3⟩, ⟨"Day3_b", 1⟩] none none =
      [some (pyRound2 ((3:Rat)/3*100)), some (pyRound2 ((1:Rat)/3*100))] := by
  show sensApply _ 3 = _
  rw [sensApply, if_neg (by norm_num)]
  rfl

/-- Reference-row selection as the code performs it (and as the amended
claim describes): the first row whose `Treatment` equals the explicit
reference treatment; else, when a reference day `N` is given, the first
row whose `Treatment` equals `Day{N}_untreated` if one exists, otherwise
the first row whose `Treatment` starts with `Day{N}_`; else the first row
of the table.  `none` when no such row exists. -/
def referenceValueAmended (df : List SensRow) (refDay : Option Int)
    (refTreat : Option String) : Option Rat :=
  match refTreat with
  | some rt => (df.find? (fun r => r.treatment == rt)).map SensRow.value
  | none =>
    match refDay with
    | none => df.head?.map SensRow.value
    | some d =>
      match df.find? (fun r => r.treatment == "Day" ++ toString d ++ "_untreated") with
      | some r => some r.value
      | none =>
        (df.find? (fun r => strStarts r.treatment ("Day" ++ toString d ++ "_"))).map
          SensRow.value

theorem filter_head?_eq_find? {α : Type} (p : α → Bool) :
    ∀ l : List α, (l.filter p).head? = l.find? p
  | [] => rfl
  | a :: l => by
    by_cases h : p a
    · simp [List.filter_cons, List.find?_cons, h]
    · simp only [List.filter_cons, List.find?_cons, h]
      simpa using filter_head?_eq_find? p l

theorem match_filter_eq_find? (p : SensRow → Bool) (df : List SensRow)
    (F : Rat → List (Option Rat)) (N : List (Option Rat)) :
    (match df.filter p with
     | [] => N
     | s :: _ => F s.value) =
    (match (df.find? p).map SensRow.value with
     | none => N
     | some b => F b) := by
  have hhead := filter_head?_eq_find? p df
  rcases hfil : df.filter p with _ | ⟨s, rest⟩ <;> rw [hfil] at hhead
  · simp only [List.head?_nil] at hhead
    rw [← hhead]
    rfl
  · simp only [List.head?_cons] at hhead
    rw [← hhead]
    rfl

/-- The body of `calculate_sensitivity` factored through the reference-row
selection: the all-null series exactly when no reference row is found,
else `sensApply` against the selected value. -/
theorem calculate_sensitivity_eq_amended (df : List SensRow) (rd : Option Int)
    (rt : Option String) :
    calculate_sensitivity df rd rt =
      match referenceValueAmended df rd rt with
      | none => df.map (fun _ => none)
      | some b => sensApply df b := by
  match df with
  | [] =>
    rcases rt with _ | t
    · rcases rd with _ | d <;> rfl
    · rfl
  | r0 :: df' =>
    rcases rt with _ | t
    · rcases rd with _ | d
      · rfl
      · show (match (if ((r0 :: df').any fun r => r.treatment == "Day" ++ toString d ++ "_untreated")
            then (r0 :: df').filter (fun r => r.treatment == "Day" ++ toString d ++ "_untreated")
            else (r0 :: df').filter (fun r => strStarts r.treatment ("Day" ++ toString d ++ "_"))) with
          | [] => (r0 :: df').map (fun _ => none)
          | s :: _ => sensApply (r0 :: df') s.value) = _
        by_cases hany : ((r0 :: df').any fun r => r.treatment == "Day" ++ toString d ++ "_untreated")
        · rw [if_pos hany]
          obtain ⟨x, hx, hpx⟩ := List.any_eq_true.mp hany
          have hfind : ∃ s, (r0 :: df').find? (fun r => r.treatment == "Day" ++ toString d ++ "_untreated") = some s := by
            rcases hf : (r0 :: df').find? (fun r => r.treatment == "Day" ++ toString d ++ "_untreated") with _ | s
            · exact absurd hpx (by simpa using List.find?_eq_none.mp hf x hx)
            · exact ⟨s, hf⟩
          obtain ⟨s, hs⟩ := hfind
          rw [match_filter_eq_find? (fun r => r.treatment == "Day" ++ toString d ++ "_untreated")]
          simp [referenceValueAmended, hs]
        · rw [if_neg hany]
          have hnone : (r0 :: df').find? (fun r => r.treatment == "Day" ++ toString d ++ "_untreated") = none := by
            rw [List.find?_eq_none]
            intro x hx hpx
            exact hany (List.any_eq_true.mpr ⟨x, hx, hpx⟩)
          rw [match_filter_eq_find? (fun r => strStarts r.treatment ("Day" ++ toString d ++ "_"))]
          simp only [referenceValueAmended, hnone]
    · show (match (r0 :: df').filter (fun r => r.treatment == t) with
        | [] => (r0 :: df').map (fun _ => none)
        | s :: _ => sensApply (r0 :: df') s.value) = _
      rw [match_filter_eq_find? (fun r => r.treatment == t)]
      simp only [referenceValueAmended]

/-- C1 counterexample: with reference day 3 and a table whose only row is
`Day3_drugA`, no row's Treatment matches `Day3_untreated` and no explicit
reference treatment is given, yet the code does not return the all-null
series — it normalizes against the first `Day3_`-prefixed row (the row
itself), contradicting the claim that the reference search is limited to
the `Day{N}_untreated` pattern. -/
theorem C1_counterexample :
    (∀ r ∈ [SensRow.mk "Day3_drugA" 5], r.treatment ≠ "Day3_untreated") ∧
    calculate_sensitivity [SensRow.mk "Day3_drugA" 5] (some 3) none ≠
      [SensRow.mk "Day3_drugA" 5].map (fun _ => none) := by
  constructor
  · intro r hr
    simp only [List.mem_singleton] at hr
    rw [hr]
    decide
  · have h : calculate_sensitivity [SensRow.mk "Day3_drugA" 5] (some 3) none =
        [some (pyRound2 ((5:Rat)/5*100))] := by
      show sensApply _ 5 = _
      rw [sensApply, if_neg (by norm_num)]
      rfl
    rw [h]
    simp

/-- C1 (amended): `calculate_sensitivity` selects the reference row in
this priority order: the first row whose Treatment equals the explicitly
given reference treatment; else, when a reference day N is given, the
first row whose Treatment equals `Day{N}_untreated` if such a row
exists and otherwise the first row whose Treatment starts with
`Day{N}_`; else the first row of the table.  Whenever the selected
reference value is zero or no reference row can be found, the
Sensitivity value of every row in that table is null, never a partial
table. -/
theorem C1_reference_selection (df : List SensRow) (rd : Option Int) (rt : Option String) :
    calculate_sensitivity df rd rt =
      match referenceValueAmended df rd rt with
      | none => df.map (fun _ => none)
      | some b =>
        if b = 0 then df.map (fun _ => none)
        else df.map (fun r => some (pyRound2 (r.value / b * 100))) := by
  rw [calculate_sensitivity_eq_amended]
  rcases referenceValueAmended df rd rt with _ | b
  · rfl
  · rfl

/-- Rounding `100` at two decimals gives exactly `100`. -/
theorem pyRound2_hundred : pyRound2 100 = 100 := by
  have hfloor : ratFloor ((100:Rat) * 100) = 10000 := by
    norm_num [ratFloor]
  rw [pyRound2, roundHalfEven]
  simp only [hfloor]
  norm_num

/-- C7: whenever the reference value selected by `calculate_sensitivity`
is some nonzero `X`, every row whose ratio value equals `X` receives a
computed Sensitivity of exactly `100`, per
`Sensitivity = round(value / reference_value * 100, 2)`. -/
theorem C7_sensitivity_round_trip (df : List SensRow) (rd : Option Int)
    (rt : Option String) (X : Rat) (i : Nat) (hi : i < df.length)
    (href : referenceValueAmended df rd rt = some X) (hX : X ≠ 0)
    (hval : (df.get ⟨i, hi⟩).value = X) :
    (calculate_sensitivity df rd rt)[i]? = some (some 100) := by
  rw [calculate_sensitivity_eq_amended, href]
  show (sensApply df X)[i]? = _
  rw [sensApply, if_neg hX]
  have hmap : (df.map fun r => some (pyRound2 (r.value / X * 100)))[i]? =
      some (some (pyRound2 ((df.get ⟨i, hi⟩).value / X * 100))) := by
    rw [List.getElem?_map, List.getElem?_eq_getElem hi]
    rfl
  rw [hmap, hval, div_self hX]
  norm_num [pyRound2_hundred]

/-- Witness for C7 at a concrete one-row table. -/
theorem C7_sensitivity_round_trip_witness :
    (calculate_sensitivity [SensRow.mk "t" 5] none none)[0]? = some (some 100) :=
  C7_sensitivity_round_trip [SensRow.mk "t" 5] none none 5 0 (by decide) rfl
    (by norm_num) rfl

/-! ## `run_crispresso_parallel` (modules/runner.py, lines 64-137)

Each submitted job is modelled by its sample name and the exit code the
external `CRISPResso` process returns (`subprocess.run` without
`check=True` never raises on a non-zero exit; the code only inspects
`proc.returncode`).  The thread pool resolves the submitted futures in
some completion order — an arbitrary permutation of the submitted jobs —
and the generator yields one `[ERROR]` line per failing job as it
completes, followed by the single final summary line. -/

/-- One submitted job: the sample name and the exit code of its external
process invocation. -/
structure Job where
  sample : String
  code : Int
deriving DecidableEq, Repr

/-- The per-sample failure log line. -/
def errLine (s : String) : String := "[ERROR] " ++ s ++ " failed."

/-- The final summary log line. -/
def completedLine (n : Nat) : String :=
  "All CRISPResso2 jobs completed (" ++ toString n ++ " samples)."

/-- Embedding of the log-yielding loop of `run_crispresso_parallel`
(runner.py lines 128-136): `completed` is the list of job results in the
order `as_completed` delivers them. -/
def run_crispresso_parallel (pairs completed : List Job) : List String :=
  (completed.filter (fun j => !(j.code == 0))).map (fun j => errLine j.sample) ++
    [completedLine pairs.length]

example :
    run_crispresso_parallel [⟨"a", 0⟩, ⟨"b", 1⟩] [⟨"b", 1⟩, ⟨"a", 0⟩] =
      ["[ERROR] b failed.", "All CRISPResso2 jobs completed (2 samples)."] := by decide

theorem errLine_starts (s : String) : strStarts (errLine s) "[ERROR] " = true := by
  simp only [strStarts, errLine, String.data_append]
  rw [List.append_assoc]
  exact List.isPrefixOf_iff_prefix.mpr (List.prefix_append _ _)

theorem completedLine_not_starts (n : Nat) :
    strStarts (completedLine n) "[ERROR] " = false := by rfl

theorem errLine_ne_completedLine (s : String) (n : Nat) :
    errLine s ≠ completedLine n := by
  intro h
  have h1 := errLine_starts s
  rw [h, completedLine_not_starts] at h1
  exact Bool.false_ne_true h1

theorem errLine_injective : Function.Injective errLine := by
  intro a b h
  have hd := congrArg String.data h
  simp only [errLine, String.data_append] at hd
  exact congrArg String.mk (List.append_cancel_left (List.append_cancel_right hd))

/-- C2: the orchestrator never aborts on a failing job — a job result is
just its exit code, and the generator yields exactly one `[ERROR]` line
per job whose exit code is non-zero (counted over the submitted list via
any completion order), yields the final "all jobs completed" line exactly
once, and yields it last, after every job has resolved. -/
theorem C2_failure_logging (pairs completed : List Job)
    (hperm : completed.Perm pairs) :
    (run_crispresso_parallel pairs completed).getLast? =
        some (completedLine pairs.length) ∧
    (run_crispresso_parallel pairs completed).count (completedLine pairs.length) = 1 ∧
    ∀ s : String,
      (run_crispresso_parallel pairs completed).count (errLine s) =
        (pairs.filter (fun j => j.sample == s && !(j.code == 0))).length := by
  refine ⟨List.getLast?_concat _, ?_, ?_⟩
  · rw [run_crispresso_parallel, List.count_append]
    have h0 : ((completed.filter (fun j => !(j.code == 0))).map
        (fun j => errLine j.sample)).count (completedLine pairs.length) = 0 := by
      rw [List.count_eq_zero]
      intro hmem
      obtain ⟨j, _, hj⟩ := List.mem_map.mp hmem
      exact errLine_ne_completedLine _ _ hj
    rw [h0]
    simp [List.count_singleton]
  · intro s
    rw [run_crispresso_parallel, List.count_append]
    have h1 : List.count (errLine s) [completedLine pairs.length] = 0 := by
      simp only [List.count_singleton, beq_iff_eq]
      rw [if_neg]
      intro h
      exact errLine_ne_completedLine s pairs.length h.symm
    have h2 : ((completed.filter (fun j => !(j.code == 0))).map
        (fun j => errLine j.sample)).count (errLine s) =
        (completed.filter (fun j => !(j.code == 0))).countP (fun j => j.sample == s) := by
      have hmm : (completed.filter (fun j => !(j.code == 0))).map (fun j => errLine j.sample) =
          ((completed.filter (fun j => !(j.code == 0))).map (fun j => j.sample)).map errLine := by
        rw [List.map_map]
        rfl
      rw [hmm, List.count_map_of_injective _ errLine errLine_injective]
      show List.countP _ _ = _
      rw [List.countP_map]
      rfl
    rw [h1, h2, List.countP_filter, hperm.countP_eq, List.countP_eq_length_filter]
    simp only [Nat.add_zero]

/-- Witness for C2 at a concrete job list with one failing sample. -/
theorem C2_failure_logging_witness :
    (run_crispresso_parallel [Job.mk "a" 0, Job.mk "b" 1]
        [Job.mk "b" 1, Job.mk "a" 0]).count (errLine "b") = 1 := by
  have h := (C2_failure_logging [Job.mk "a" 0, Job.mk "b" 1]
    [Job.mk "b" 1, Job.mk "a" 0] (by decide)).2.2 "b"
  rw [h]
  decide

/-! ## `reorganize_extracted_fastqs` (modules/utils.py, lines 40-54)

Files under the extraction root are modelled by their relative paths
(component lists); the filename is the last component.  `rglob` is a
snapshot enumeration of the files whose name ends in `.fastq.gz`;
`p.rename(newp)` updates the file's path, and the `except: pass` that
swallows a failing rename is modelled by a failure oracle saying which
renames raise.  Each enumerated file is processed independently, so the
sequential loop is a map over the snapshot. -/

abbrev RPath := List String

structure XFile where
  path : RPath
deriving DecidableEq, Repr

def fileName (f : XFile) : String := f.path.getLast?.getD ""

/-- Destination path `<root>/<replicate>/<treatment>/<name>` chosen by the
loop body (utils.py lines 42-49). -/
def destFor (name : String) : RPath :=
  match parse_fastq_metadata name with
  | none => ["Replica-unknown", "Day-unknown", name]
  | some rt => [rt.1, rt.2, name]

/-- One loop iteration: move an enumerated file to its destination unless
it is already there (`p.resolve() != newp.resolve()`) or the rename
raises (swallowed). -/
def reorganizeFile (fail : XFile → Bool) (f : XFile) : XFile :=
  if strEnds (fileName f) ".fastq.gz" ∧ destFor (fileName f) ≠ f.path ∧ ¬ fail f
  then ⟨destFor (fileName f)⟩ else f

/-- The renames the loop attempts on a tree: one `(source, destination)`
per enumerated file that is not already at its destination. -/
def reorganizeMoves (fs : List XFile) : List (RPath × RPath) :=
  (fs.filter (fun f =>
    strEnds (fileName f) ".fastq.gz" && !(destFor (fileName f) == f.path))).map
    (fun f => (f.path, destFor (fileName f)))

/-- Embedding of `reorganize_extracted_fastqs` (utils.py lines 40-54). -/
def reorganize_extracted_fastqs (fs : List XFile) (fail : XFile → Bool) : List XFile :=
  fs.map (reorganizeFile fail)

example :
    reorganize_extracted_fastqs [XFile.mk ["raw", "Day1_a_b_2.fastq.gz"]] (fun _ => false) =
      [XFile.mk ["Replica-2", "Day1_b", "Day1_a_b_2.fastq.gz"]] := by decide

theorem fileName_destFor (n : String) : fileName ⟨destFor n⟩ = n := by
  unfold destFor
  cases parse_fastq_metadata n <;> rfl

theorem fileName_reorganizeFile (fail : XFile → Bool) (f : XFile) :
    fileName (reorganizeFile fail f) = fileName f := by
  unfold reorganizeFile
  by_cases h : strEnds (fileName f) ".fastq.gz" ∧ destFor (fileName f) ≠ f.path ∧ ¬ fail f
  · rw [if_pos h, fileName_destFor]
  · rw [if_neg h]

/-- C6: a second run over a tree the function has just organized attempts
zero renames (for every file the computed destination equals its current
location); and for any failure oracle the loop still visits every file
and a file whose rename raised is left in place, the error never
propagating out of the traversal. -/
theorem C6_reorganize_idempotent (fs : List XFile) (fail : XFile → Bool) :
    reorganizeMoves (reorganize_extracted_fastqs fs (fun _ => false)) = [] ∧
    (reorganize_extracted_fastqs fs fail).length = fs.length ∧
    (∀ f ∈ fs, fail f = true → f ∈ reorganize_extracted_fastqs fs fail) := by
  refine ⟨?_, List.length_map _ _, ?_⟩
  · rw [reorganizeMoves, List.map_eq_nil_iff]
    rw [List.filter_eq_nil_iff]
    intro a ha
    obtain ⟨f, _, hf⟩ := List.mem_map.mp ha
    by_cases h : strEnds (fileName f) ".fastq.gz" ∧ destFor (fileName f) ≠ f.path ∧
        ¬ (fun _ => false) f
    · have ha' : a = ⟨destFor (fileName f)⟩ := by rw [← hf, reorganizeFile, if_pos h]
      have hname : fileName a = fileName f := by rw [← hf, fileName_reorganizeFile]
      simp only [Bool.and_eq_true, Bool.not_eq_true', beq_eq_false_iff_ne, ne_eq, not_and]
      intro _
      rw [hname, ha']
      simp [fileName_destFor]
    · have ha' : a = f := by rw [← hf, reorganizeFile, if_neg h]
      push_neg at h
      subst ha'
      by_cases henum : strEnds (fileName a) ".fastq.gz"
      · have hdest : destFor (fileName a) = a.path := by
          by_contra hne
          exact absurd (h henum hne) (by simp)
        simp [hdest]
      · simp [henum]
  · intro f hf hfail
    refine List.mem_map.mpr ⟨f, hf, ?_⟩
    rw [reorganizeFile, if_neg]
    intro h
    rw [hfail] at h
    exact h.2.2 (by simp)

theorem fastq_not_fastqgz {s : String} (h : strEnds s ".fastq" = true) :
    strEnds s ".fastq.gz" = false := by
  by_contra hgz
  have hgz' : strEnds s ".fastq.gz" = true := by
    revert hgz
    cases strEnds s ".fastq.gz" <;> simp
  have h1 : ".fastq".data <:+ s.data := List.isSuffixOf_iff_suffix.mp h
  have h2 : ".fastq.gz".data <:+ s.data := List.isSuffixOf_iff_suffix.mp hgz'
  rw [← List.reverse_prefix] at h1 h2
  rcases List.prefix_or_prefix_of_prefix h1 h2 with hp | hp
  · exact absurd hp (by decide)
  · exact absurd hp (by decide)

/-- C9: only `*.fastq.gz` files are enumerated.  A file whose name ends in
`.fastq` without `.gz` is left untouched by `reorganize_extracted_fastqs`
(it is not in the `rglob` enumeration) and never appears as the R1 or R2
of any `pair_fastqs` entry — even though the classifier grammar itself
accepts plain `.fastq` names, as the final conjunct shows on a concrete
filename. -/
theorem C9_only_fastq_gz_enumerated (xfs : List XFile) (fail : XFile → Bool)
    (f : XFile) (hf : strEnds (fileName f) ".fastq" = true)
    (files : List FFile) (g : FFile) (hg : strEnds g.name ".fastq" = true) :
    reorganizeFile fail f = f ∧
    f ∉ xfs.filter (fun x => strEnds (fileName x) ".fastq.gz") ∧
    (∀ e ∈ pair_fastqs files, e.r1 ≠ g ∧ e.r2 ≠ some g) ∧
    parse_fastq_metadata "Day1_g_b_2.fastq" = some ("Replica-2", "Day1_b") := by
  have hfgz := fastq_not_fastqgz hf
  have hggz := fastq_not_fastqgz hg
  refine ⟨?_, ?_, ?_, by decide⟩
  · rw [reorganizeFile, if_neg]
    intro hc
    rw [hfgz] at hc
    exact absurd hc.1 (by simp)
  · intro hmem
    have := (List.mem_filter.mp hmem).2
    rw [hfgz] at this
    exact absurd this (by simp)
  · intro e he
    obtain ⟨_, hr1, hr2⟩ := pair_fastqs_spec files
    constructor
    · intro heq
      have := (hr1 e he).2.1
      rw [heq, hggz] at this
      exact absurd this (by simp)
    · intro heq
      have := (hr2 e he g heq).2.1
      rw [hggz] at this
      exact absurd this (by simp)

/-- Witness for C9 at a concrete `.fastq` file and tree. -/
theorem C9_only_fastq_gz_enumerated_witness :
    reorganizeFile (fun _ => false) (XFile.mk ["raw", "Day1_g_b_2.fastq"]) =
      XFile.mk ["raw", "Day1_g_b_2.fastq"] :=
  (C9_only_fastq_gz_enumerated [] (fun _ => false) (XFile.mk ["raw", "Day1_g_b_2.fastq"])
    (by decide) [] ⟨"r", "x.fastq"⟩ (by decide)).1

/-- Witness for C6: an organized single-file tree yields no second-run
renames, and a file whose rename fails survives the traversal. -/
theorem C6_reorganize_idempotent_witness :
    reorganizeMoves (reorganize_extracted_fastqs
        [XFile.mk ["raw", "Day1_a_b_2.fastq.gz"]] (fun _ => false)) = [] ∧
    XFile.mk ["x.fastq.gz"] ∈ reorganize_extracted_fastqs
        [XFile.mk ["x.fastq.gz"]] (fun _ => true) :=
  ⟨(C6_reorganize_idempotent [XFile.mk ["raw", "Day1_a_b_2.fastq.gz"]] (fun _ => false)).1,
   (C6_reorganize_idempotent [XFile.mk ["x.fastq.gz"]] (fun _ => true)).2.2 _
     (by decide) rfl⟩

/-! ## `process_treatment_folder` (modules/utils.py, lines 82-165)

A sample's output directory is modelled by the list of files below it
(relative component paths, in traversal order, the filename being the
last component).  `os.path.exists` is membership, `rglob` scans the list
in order at any depth, and `glob.glob(dir/pattern)` filters the files
directly in `dir` whose name matches the `pre*suf` pattern. -/

def runningLog : String := "CRISPResso_RUNNING_LOG.txt"
def mappingStats : String := "CRISPResso_mapping_statistics.txt"
def quantEdit : String := "CRISPResso_quantification_of_editing_frequency.txt"
def frameshiftFile : String := "Frameshift_analysis.txt"

/-- The numbers the report parser extracts from one result directory. -/
structure ParsedMetrics where
  totalReads : Nat
  wtUnmodifiedPercent : Rat
  unmodifiedReads : Nat
  mutPercent : Rat
  mutReads : Nat
  wtPercent : Rat
  wtReads : Nat
  frameshiftPercent : Rat
  frameshiftReads : Nat
  inframePercent : Rat
  inframeReads : Nat
  indelPercent : Rat
  modifiedReads : Nat
  mutWtPercent : Rat
deriving DecidableEq, Repr, Inhabited

/-- Modelled from the spec: the `parser` module (`_get_total_reads`,
`_get_modif_reads`, `_get_frame_reads`, `_get_mut_wt_reads`) is imported
by `utils.py` but its source is not under `src/`; per §4.4 of the spec it
extracts total reads, modification, frameshift and mutant/wild-type
metrics from the text reports of a result directory.  The extraction is
modelled as the oracle `metrics`, keyed by the resolved directory. -/
structure SampleFS where
  files : List RPath
  metrics : RPath → ParsedMetrics

/-- fnmatch of a `pre*suf` glob pattern against a filename. -/
def globName (pre suf n : String) : Bool :=
  (strStarts n pre && strEnds n suf) && decide (pre.length + suf.length ≤ n.length)

/-- Directory resolution of utils.py lines 89-100: the directory itself
when it directly contains `CRISPResso_RUNNING_LOG.txt`, else the parent
of the first running log found by the recursive `rglob`, at any depth;
`none` when no running log exists anywhere. -/
def resolvedDir (fs : SampleFS) : Option RPath :=
  if ([runningLog] : RPath) ∈ fs.files then some []
  else (fs.files.find? (fun p => p.getLast? == some runningLog)).map List.dropLast

/-- One per-sample record, with the dict keys of utils.py lines 148-165. -/
structure MetricsRecord where
  treatment : String
  wtUnmodifiedPercent : Rat
  unmodifiedReads : Nat
  mutPercent : Rat
  mutReads : Nat
  wtPercent : Rat
  wtReads : Nat
  frameshiftPercent : Rat
  frameshiftReads : Nat
  inframePercent : Rat
  inframeReads : Nat
  indelPercent : Rat
  modifiedReads : Nat
  mutWtPercent : Rat
  totalReads : Nat
  reportPath : Option String
deriving DecidableEq, Repr

/-- `sorted(...)` on filenames within one directory. -/
def sortStrings (l : List String) : List String :=
  List.insertionSort (fun a b => strLEb a b = true) l

/-- `glob.glob` of a `pre*suf` pattern in one directory of the tree. -/
def globInDir (fs : SampleFS) (dir : RPath) (pre suf : String) : List String :=
  (fs.files.filter (fun p => p.dropLast == dir &&
     globName pre suf (p.getLast?.getD ""))).map (fun p => p.getLast?.getD "")

/-- Embedding of `process_treatment_folder` (utils.py lines 82-165).
`dirName` is `os.path.basename(treatment_path)`.  The allele table chosen
for parsing is the lexicographically first glob match; it exists in the
tree by construction, so the `required_paths` check reduces to the other
three files. -/
def process_treatment_folder (dirName : String) (fs : SampleFS) : Option MetricsRecord :=
  match resolvedDir fs with
  | none => none
  | some actual =>
    let base_name := actual.getLast?.getD dirName
    let sample_dir := if strStarts base_name "CRISPResso_on_" then actual.dropLast else actual
    let report := (sortStrings (globInDir fs sample_dir "CRISPResso_on_" ".html")).head?
    let allele_matches :=
      globInDir fs actual "Alleles_frequency_table_around_sgRNA_" ".txt" ++
      globInDir fs actual "Alleles_frequency_table_around_cut_site_" ".txt" ++
      globInDir fs actual "Alleles_frequency_table" ".txt"
    if allele_matches.isEmpty then none
    else if (actual ++ [mappingStats]) ∈ fs.files ∧ (actual ++ [quantEdit]) ∈ fs.files ∧
        (actual ++ [frameshiftFile]) ∈ fs.files then
      let m := fs.metrics actual
      some ⟨dirName, m.wtUnmodifiedPercent, m.unmodifiedReads, m.mutPercent, m.mutReads,
        m.wtPercent, m.wtReads, m.frameshiftPercent, m.frameshiftReads, m.inframePercent,
        m.inframeReads, m.indelPercent, m.modifiedReads, m.mutWtPercent, m.totalReads,
        report⟩
    else none

/-- Tree of the C3 counterexample: the mapping-statistics file sits
directly in the sample directory, but the running log — the file the code
actually keys its fallback on — only exists two levels down, next to a
complete set of reports. -/
def c3fs : SampleFS :=
  ⟨[[mappingStats],
    ["sub", "deep", runningLog],
    ["sub", "deep", mappingStats],
    ["sub", "deep", quantEdit],
    ["sub", "deep", frameshiftFile],
    ["sub", "deep", "Alleles_frequency_table_around_sgRNA_ACGT.txt"]],
   fun _ => default⟩

/-- C3 counterexample: the directory directly contains the
mapping-statistics file — so by the claim no fallback occurs and, the
other required reports being absent at that level, no record should be
yielded — and the only running log sits two nested levels down (beyond a
one-level search); yet the code returns a record, because its fallback
triggers on the running log, searches at any depth, and reads the
reports from the nested directory. -/
theorem C3_counterexample :
    ([mappingStats] : RPath) ∈ c3fs.files ∧
    ¬(([quantEdit] : RPath) ∈ c3fs.files ∧ ([frameshiftFile] : RPath) ∈ c3fs.files) ∧
    (∀ p ∈ c3fs.files, p.getLast? = some runningLog → p.length = 3) ∧
    process_treatment_folder "t" c3fs ≠ none := by decide

/-- The four report files required in a resolved directory: the three
fixed names plus at least one allele-frequency table matching one of the
three glob patterns. -/
def requiredReportsAt (fs : SampleFS) (actual : RPath) : Prop :=
  (actual ++ [mappingStats]) ∈ fs.files ∧ (actual ++ [quantEdit]) ∈ fs.files ∧
  (actual ++ [frameshiftFile]) ∈ fs.files ∧
  (∃ p ∈ fs.files, p.dropLast = actual ∧
     (globName "Alleles_frequency_table_around_sgRNA_" ".txt" (p.getLast?.getD "") = true ∨
      globName "Alleles_frequency_table_around_cut_site_" ".txt" (p.getLast?.getD "") = true ∨
      globName "Alleles_frequency_table" ".txt" (p.getLast?.getD "") = true))

theorem globInDir_eq_nil_iff (fs : SampleFS) (dir : RPath) (pre suf : String) :
    globInDir fs dir pre suf = [] ↔
      ∀ p ∈ fs.files, ¬(p.dropLast = dir ∧ globName pre suf (p.getLast?.getD "") = true) := by
  unfold globInDir
  rw [List.map_eq_nil_iff, List.filter_eq_nil_iff]
  constructor
  · intro h p hp hc
    exact h p hp (by simp [hc.1, hc.2])
  · intro h p hp hc
    rw [Bool.and_eq_true, beq_iff_eq] at hc
    exact h p hp hc

theorem allele_matches_exists {fs : SampleFS} {actual : RPath}
    (hall : ¬((globInDir fs actual "Alleles_frequency_table_around_sgRNA_" ".txt" ++
        globInDir fs actual "Alleles_frequency_table_around_cut_site_" ".txt" ++
        globInDir fs actual "Alleles_frequency_table" ".txt").isEmpty = true)) :
    ∃ p ∈ fs.files, p.dropLast = actual ∧
      (globName "Alleles_frequency_table_around_sgRNA_" ".txt" (p.getLast?.getD "") = true ∨
       globName "Alleles_frequency_table_around_cut_site_" ".txt" (p.getLast?.getD "") = true ∨
       globName "Alleles_frequency_table" ".txt" (p.getLast?.getD "") = true) := by
  have hne : ¬(globInDir fs actual "Alleles_frequency_table_around_sgRNA_" ".txt" ++
      globInDir fs actual "Alleles_frequency_table_around_cut_site_" ".txt" ++
      globInDir fs actual "Alleles_frequency_table" ".txt") = [] := by
    intro hnil
    rw [← List.isEmpty_iff] at hnil
    exact hall hnil
  rw [List.append_assoc] at hne
  rw [List.append_eq_nil] at hne
  push_neg at hne
  by_cases h1 : globInDir fs actual "Alleles_frequency_table_around_sgRNA_" ".txt" = []
  · have h23 := hne h1
    rw [ne_eq, List.append_eq_nil] at h23
    push_neg at h23
    by_cases h2 : globInDir fs actual "Alleles_frequency_table_around_cut_site_" ".txt" = []
    · have h3 := h23 h2
      rw [ne_eq, globInDir_eq_nil_iff] at h3
      push_neg at h3
      obtain ⟨p, hp, hdrop, hglob⟩ := h3
      exact ⟨p, hp, hdrop, Or.inr (Or.inr hglob)⟩
    · rw [globInDir_eq_nil_iff] at h2
      push_neg at h2
      obtain ⟨p, hp, hdrop, hglob⟩ := h2
      exact ⟨p, hp, hdrop, Or.inr (Or.inl hglob)⟩
  · rw [globInDir_eq_nil_iff] at h1
    push_neg at h1
    obtain ⟨p, hp, hdrop, hglob⟩ := h1
    exact ⟨p, hp, hdrop, Or.inl hglob⟩

/-- C3 (amended): the fallback of `process_treatment_folder` triggers on
the absence of the running log `CRISPResso_RUNNING_LOG.txt` (not of the
mapping-statistics file) directly in the directory, and searches
recursively at any depth; the sample yields no record when no running
log exists anywhere, and no record when the four required report files
do not all exist in the resolved directory — a record exists only when
a directory is resolved and the four required files are present there. -/
theorem C3_report_parser_fallback (dirName : String) (fs : SampleFS) :
    ((∀ p ∈ fs.files, p.getLast? ≠ some runningLog) →
       process_treatment_folder dirName fs = none) ∧
    (∀ actual, resolvedDir fs = some actual →
       ¬ requiredReportsAt fs actual → process_treatment_folder dirName fs = none) ∧
    (process_treatment_folder dirName fs ≠ none →
       ∃ actual, resolvedDir fs = some actual ∧ requiredReportsAt fs actual) := by
  refine ⟨?_, ?_, ?_⟩
  · intro h
    have hres : resolvedDir fs = none := by
      unfold resolvedDir
      rw [if_neg (fun hmem => h _ hmem (by decide))]
      rw [List.find?_eq_none.mpr]
      · rfl
      · intro p hp
        simp only [beq_iff_eq]
        exact h p hp
    unfold process_treatment_folder
    rw [hres]
  · intro actual hres hreq
    unfold process_treatment_folder
    rw [hres]
    dsimp only
    by_cases hall : (globInDir fs actual "Alleles_frequency_table_around_sgRNA_" ".txt" ++
        globInDir fs actual "Alleles_frequency_table_around_cut_site_" ".txt" ++
        globInDir fs actual "Alleles_frequency_table" ".txt").isEmpty
    · rw [if_pos hall]
    · rw [if_neg hall, if_neg]
      intro hthree
      exact hreq ⟨hthree.1, hthree.2.1, hthree.2.2, allele_matches_exists hall⟩
  · intro hsome
    rcases hres : resolvedDir fs with _ | actual
    · exfalso
      apply hsome
      unfold process_treatment_folder
      rw [hres]
    · refine ⟨actual, rfl, ?_⟩
      unfold process_treatment_folder at hsome
      rw [hres] at hsome
      dsimp only at hsome
      by_cases hall : (globInDir fs actual "Alleles_frequency_table_around_sgRNA_" ".txt" ++
          globInDir fs actual "Alleles_frequency_table_around_cut_site_" ".txt" ++
          globInDir fs actual "Alleles_frequency_table" ".txt").isEmpty
      · rw [if_pos hall] at hsome
        exact absurd rfl hsome
      · by_cases hthree : (actual ++ [mappingStats]) ∈ fs.files ∧
            (actual ++ [quantEdit]) ∈ fs.files ∧ (actual ++ [frameshiftFile]) ∈ fs.files
        · exact ⟨hthree.1, hthree.2.1, hthree.2.2, allele_matches_exists hall⟩
        · rw [if_neg hall, if_neg hthree] at hsome
          exact absurd rfl hsome

/-- Witness for C3 at concrete trees: an empty tree yields no record,
and a tree whose resolved root lacks the other reports yields no record. -/
theorem C3_report_parser_fallback_witness :
    process_treatment_folder "t" ⟨[], fun _ => default⟩ = none ∧
    process_treatment_folder "t" ⟨[[runningLog]], fun _ => default⟩ = none :=
  ⟨(C3_report_parser_fallback "t" ⟨[], fun _ => default⟩).1 (by decide),
   (C3_report_parser_fallback "t" ⟨[[runningLog]], fun _ => default⟩).2.1 [] (by decide)
     (fun hreq => by
       have := hreq.1
       revert this
       decide)⟩

/-! ## `build_dfs_by_replicate` (modules/utils.py, lines 201-237)

A lightweight DataFrame model: a list of column names and rows of cells.
`pd.DataFrame(list_of_dicts)` produces the dict-key columns in order;
`df[c] = series` appends a column; `df.insert(0, c, v)` prepends one;
`df.loc[:, cols]` reorders by name; `df.drop(columns=[c])` removes one.
The output root is the replicate directories with their treatment
subdirectories, each carrying a sample tree for the report parser. -/

inductive Cell where
  | str : String → Cell
  | rat : Rat → Cell
  | nat : Nat → Cell
  | orat : Option Rat → Cell
  | ostr : Option String → Cell
deriving DecidableEq, Repr

structure DFrame where
  cols : List String
  rows : List (List Cell)
deriving DecidableEq, Repr

def DFrame.empty : DFrame := ⟨[], []⟩

/-- The dict keys of the record built by `process_treatment_folder`
(utils.py lines 148-165), in order. -/
def recordCols : List String :=
  ["Treatment", "WT/Unmodified%", "Reads (WT/Unmodified)", "MUT%", "Reads (MUT)",
   "WT*%", "Reads (WT*)", "Frameshift%", "Reads (Frameshift)", "In-frame%",
   "Reads (In-frame)", "Indel%", "Reads (Modified)", "MUT/WT*%", "Total Reads",
   "ReportPath"]

def recordRow (r : MetricsRecord) : List Cell :=
  [Cell.str r.treatment, Cell.rat r.wtUnmodifiedPercent, Cell.nat r.unmodifiedReads,
   Cell.rat r.mutPercent, Cell.nat r.mutReads, Cell.rat r.wtPercent, Cell.nat r.wtReads,
   Cell.rat r.frameshiftPercent, Cell.nat r.frameshiftReads, Cell.rat r.inframePercent,
   Cell.nat r.inframeReads, Cell.rat r.indelPercent, Cell.nat r.modifiedReads,
   Cell.rat r.mutWtPercent, Cell.nat r.totalReads, Cell.ostr r.reportPath]

def dfOfRecords (rows : List MetricsRecord) : DFrame :=
  ⟨recordCols, rows.map recordRow⟩

def DFrame.addCol (df : DFrame) (c : String) (vals : List Cell) : DFrame :=
  ⟨df.cols ++ [c], List.zipWith (fun row v => row ++ [v]) df.rows vals⟩

def DFrame.selectCols (df : DFrame) (cs : List String) : DFrame :=
  ⟨cs, df.rows.map (fun row => cs.filterMap (fun c => lookupA (df.cols.zip row) c))⟩

def DFrame.dropCol (df : DFrame) (c : String) : DFrame :=
  ⟨df.cols.filter (fun x => !(x == c)),
   df.rows.map (fun row => (df.cols.zip row).filterMap
     (fun kv => if kv.1 = c then none else some kv.2))⟩

def DFrame.insertCol0 (df : DFrame) (c : String) (vals : List Cell) : DFrame :=
  ⟨c :: df.cols, List.zipWith (fun v row => v :: row) vals df.rows⟩

/-- The two columns `calculate_sensitivity` reads from a record. -/
def toSensRow (r : MetricsRecord) : SensRow := ⟨r.treatment, r.mutWtPercent⟩

/-- One replicate directory: its treatment subdirectories (name and
sample tree) and, for the no-subdirectory case, the replicate directory
itself as a sample tree. -/
structure RepDir where
  subdirs : List (String × SampleFS)
  selfFS : SampleFS

/-- The output root: replicate name to directory. -/
structure OutRoot where
  reps : List (String × RepDir)

/-- The loop body of `build_dfs_by_replicate` for one replicate whose
directory exists (utils.py lines 208-236). -/
def buildRepDF (rep : String) (rd : RepDir) (refDay : Option Int)
    (refTreat : Option String) : DFrame :=
  match rd.subdirs with
  | [] =>
    match process_treatment_folder rep rd.selfFS with
    | none => DFrame.empty
    | some data =>
      let df := dfOfRecords [data]
      let df := df.addCol "Sensitivity"
        ((calculate_sensitivity [toSensRow data] refDay refTreat).map Cell.orat)
      let df := df.addCol "Replicate" [Cell.str rep]
      let df := df.selectCols ("Replicate" :: df.cols.filter (fun c => !(c == "Replicate")))
      df.dropCol "ReportPath"
  | t :: ts =>
    let rows := (t :: ts).filterMap (fun s => process_treatment_folder s.1 s.2)
    if rows.isEmpty then DFrame.empty
    else
      let df := dfOfRecords rows
      let df := df.addCol "Sensitivity"
        ((calculate_sensitivity (rows.map toSensRow) refDay refTreat).map Cell.orat)
      let df := df.insertCol0 "Replicate" (rows.map (fun _ => Cell.str rep))
      df.dropCol "ReportPath"

/-- Embedding of `build_dfs_by_replicate` (utils.py lines 201-237): one
`(replicate, DataFrame)` per requested replicate, the empty frame when
the replicate directory is missing or yielded no record. -/
def build_dfs_by_replicate (root : OutRoot) (samples : List String)
    (refDay : Option Int) (refTreat : Option String) : List (String × DFrame) :=
  samples.map (fun rep =>
    (rep, match lookupA root.reps rep with
      | none => DFrame.empty
      | some rd => buildRepDF rep rd refDay refTreat))

theorem lookupA_map_self {β : Type} (F : String → β) :
    ∀ (samples : List String) (rep : String) (v : β),
      lookupA (samples.map (fun s => (s, F s))) rep = some v → v = F rep
  | [], _, _, h => by cases h
  | s :: rest, rep, v, h => by
    rw [List.map_cons] at h
    by_cases hs : s = rep
    · rw [lookupA, if_pos hs] at h
      subst hs
      exact (Option.some.inj h).symm
    · rw [lookupA, if_neg hs] at h
      exact lookupA_map_self F rest rep v h

theorem not_mem_dropCol_cols (df : DFrame) (c : String) : c ∉ (df.dropCol c).cols := by
  intro h
  have := (List.mem_filter.mp h).2
  simp at this

theorem buildRepDF_no_report (rep : String) (rd : RepDir) (refDay : Option Int)
    (refTreat : Option String) :
    "ReportPath" ∉ (buildRepDF rep rd refDay refTreat).cols := by
  obtain ⟨subs, sfs⟩ := rd
  rcases subs with _ | ⟨t, ts⟩
  · unfold buildRepDF
    rcases hproc : process_treatment_folder rep sfs with _ | data
    · intro h
      exact List.not_mem_nil _ h
    · exact not_mem_dropCol_cols _ _
  · unfold buildRepDF
    dsimp only
    by_cases hrows : ((t :: ts).filterMap
        (fun s => process_treatment_folder s.1 s.2)).isEmpty
    · rw [if_pos hrows]
      intro h
      exact List.not_mem_nil _ h
    · rw [if_neg hrows]
      exact not_mem_dropCol_cols _ _

/-- C10: every non-empty DataFrame exposed by `build_dfs_by_replicate`
excludes the `ReportPath` column collected into the per-sample records —
the report-link column is dropped before a replicate table is exposed. -/
theorem C10_no_report_column (root : OutRoot) (samples : List String)
    (refDay : Option Int) (refTreat : Option String) (rep : String) (df : DFrame)
    (hdf : lookupA (build_dfs_by_replicate root samples refDay refTreat) rep = some df)
    (hne : df.rows ≠ []) :
    "ReportPath" ∉ df.cols := by
  have hdf' : df = match lookupA root.reps rep with
      | none => DFrame.empty
      | some rd => buildRepDF rep rd refDay refTreat :=
    lookupA_map_self _ samples rep df hdf
  rcases hroot : lookupA root.reps rep with _ | rd
  · rw [hroot] at hdf'
    subst hdf'
    exact absurd rfl hne
  · rw [hroot] at hdf'
    subst hdf'
    exact buildRepDF_no_report rep rd refDay refTreat

/-- Sample tree for the C10 witness: a complete set of reports directly
in the treatment directory. -/
def c10fs : SampleFS :=
  ⟨[[runningLog], [mappingStats], [quantEdit], [frameshiftFile],
    ["Alleles_frequency_table_around_sgRNA_A.txt"]], fun _ => default⟩

def c10root : OutRoot := ⟨[("Replica-1", ⟨[("Day1_t", c10fs)], c10fs⟩)]⟩

/-- Witness for C10 at a one-replicate, one-treatment output tree whose
table is non-empty. -/
theorem C10_no_report_column_witness :
    "ReportPath" ∉ ((lookupA (build_dfs_by_replicate c10root ["Replica-1"] none none)
        "Replica-1").getD DFrame.empty).cols :=
  C10_no_report_column c10root ["Replica-1"] none none "Replica-1" _ rfl (by decide)

end CrisprAnalyzer
